import Mathlib

/-!
# Verification of the Russian-checkers rule engine and search engine

Shallow embedding of the repository's JavaScript sources:

* `src/rules.js`   — class `ChessRules` (move generation, mandatory jumps,
  promotion, terminal detection), embedded in namespace `ChessRules`;
* `src/chess.js`   — class `ChessGame` (the game controller: `movePiece`,
  `checkMandatoryJumps`, `updateGameState`), embedded in namespace `ChessGame`;
* `src/chess-ai.js` — class `ChessAI` (iterative-deepening minimax with
  alpha-beta, Zobrist hashing, transposition table and quiescence search),
  embedded in namespace `ChessAI`.

Modelling conventions:

* JavaScript numbers used as board coordinates are embedded as `Int`
  (all arithmetic on them in the sources is exact integer arithmetic);
  scores are embedded as `JNum` (an extended rational: the sources use
  `Infinity`/`-Infinity` sentinels and otherwise only arithmetic that is
  exact on IEEE doubles in the ranges involved).
* A piece object is `PieceJS` with `Option` fields: `color = none` models a
  missing/invalid `color` property and `isKing = none` models a missing
  `isKing` property (the sources test these with truthiness and
  `typeof ... === 'undefined'`).
* A board is a list of rows of cells (`Option PieceJS`); `getCell` returns
  `none` outside the structure, mirroring the guarded accesses of the
  sources (accesses in the sources are either guarded by `isInBounds`
  and row-existence checks, or reached only with well-formed boards).
* Nullable function arguments (`board`, `piece`) are `Option`s, and a
  position argument is a `List Int` so the `Array.isArray(position) &&
  position.length === 2` validations are represented faithfully.
* Moves returned by the rule engine are `List Int` values:
  `[toX, toY]` for regular moves and `[toX, toY, capX, capY]` for jumps,
  exactly as in the sources (the controller distinguishes them by length).
* The unbounded recursion of `findPaths` (`rules.js` lines 120–197) is
  embedded with an explicit fuel of 64: every recursive call removes the
  captured piece from the (at most 64-square) board, so the JavaScript
  recursion never exceeds depth 64 and the fuelled function agrees with it.
-/

namespace Checkers

inductive Color where
  | red
  | yellow
deriving DecidableEq, Repr

def Color.other : Color → Color
  | .red => .yellow
  | .yellow => .red

/-- A piece object as stored on the board. `color = none` models a missing or
invalid `color` property; `isKing = none` models a missing `isKing` property. -/
structure PieceJS where
  color : Option Color
  isKing : Option Bool
deriving DecidableEq, Repr

/-- JavaScript truthiness of `piece.isKing`. -/
def PieceJS.kingB (p : PieceJS) : Bool := p.isKing = some true

abbrev Cell := Option PieceJS

abbrev Board := List (List Cell)

/-- Read `board[y][x]`; `none` outside the structure of the board. -/
def getCell (b : Board) (x y : Int) : Cell :=
  if 0 ≤ x ∧ 0 ≤ y then
    match b.get? y.toNat with
    | some row => (row.get? x.toNat).getD none
    | none => none
  else none

/-- Write `board[y][x] = v` (no-op outside the structure of the board). -/
def setCell (b : Board) (x y : Int) (v : Cell) : Board :=
  if 0 ≤ x ∧ 0 ≤ y then
    match b.get? y.toNat with
    | some row => b.set y.toNat (row.set x.toNat v)
    | none => b
  else b

/-- The board is a well-formed 8×8 grid. -/
def WF8 (b : Board) : Prop := b.length = 8 ∧ ∀ row ∈ b, row.length = 8

instance : DecidablePred WF8 := fun b => by
  unfold WF8; infer_instance

/-- Every piece on the board has both a `color` and an `isKing` property. -/
def WFPieces (b : Board) : Prop :=
  ∀ row ∈ b, ∀ c ∈ row, ∀ p, c = some p → p.color ≠ none ∧ p.isKing ≠ none

instance : DecidablePred WFPieces := fun b => by
  unfold WFPieces; infer_instance

/-- Number of occupied squares of the board. -/
def piecesCount (b : Board) : Nat :=
  (b.map (fun row => (row.filter Option.isSome).length)).sum

end Checkers

namespace ChessRules

open Checkers

/-- Embeds `this.directions.red_move` (rules.js line 7). -/
def red_move : List (Int × Int) := [(-1, -1), (1, -1)]

/-- Embeds `this.directions.yellow_move` (rules.js line 8). -/
def yellow_move : List (Int × Int) := [(-1, 1), (1, 1)]

/-- Embeds `this.directions.all_capture` (rules.js line 10). -/
def all_capture : List (Int × Int) := [(-1, -1), (1, -1), (-1, 1), (1, 1)]

/-- Embeds `this.directions.king_move` (rules.js line 12). -/
def king_move : List (Int × Int) := [(-1, -1), (1, -1), (-1, 1), (1, 1)]

/-- Embeds `ChessRules.isInBounds` (rules.js lines 327–329).  The
`Number.isInteger` conjuncts hold by typing (`Int` arguments). -/
def isInBounds (x y : Int) : Bool :=
  0 ≤ x && x < 8 && 0 ≤ y && y < 8

/-- Embeds `ChessRules.shouldPromote` (rules.js lines 332–334). -/
def shouldPromote (color : Option Color) (y : Int) : Bool :=
  (color = some Color.red && y = 0) || (color = some Color.yellow && y = 7)

/-- Embeds `ChessRules.copyBoard` (rules.js lines 337–348): produces a fresh 8×8
value copy, filling missing rows/cells with `null`.
(`ChessAI.copyBoard`, chess-ai.js lines 1102–1115, computes the same value
for the 8×8 boards it is applied to.) -/
def copyBoard (b : Board) : Board :=
  (List.range 8).map (fun y => (List.range 8).map (fun x => getCell b (Int.ofNat x) (Int.ofNat y)))

/-- The inner distance loop of the king case of `ChessRules.getRegularMoves`
(rules.js lines 81–87): collect empty in-bounds squares along direction
`(dx, dy)` until the first obstruction.  `dist` runs from 1 while
`dist < 8`, so the loop body executes at most 7 times (the fuel). -/
def kingRegularRay (b : Board) (x y dx dy : Int) : Nat → Int → List (List Int)
  | 0, _ => []
  | n + 1, dist =>
    let newX := x + dx * dist
    let newY := y + dy * dist
    if ¬ isInBounds newX newY then []
    else if (getCell b newX newY).isSome then []
    else [newX, newY] :: kingRegularRay b x y dx dy n (dist + 1)

/-- Embeds `ChessRules.getRegularMoves` (rules.js lines 53–105). -/
def getRegularMoves (board : Option Board) (position : List Int)
    (piece : Option PieceJS) : List (List Int) :=
  match board, position, piece with
  | some b, [x, y], some p =>
    let isKing := p.kingB
    let moveDirections :=
      if isKing then king_move
      else if p.color = some Color.red then red_move else yellow_move
    if isKing then
      moveDirections.foldl (fun moves d =>
        moves ++ kingRegularRay b x y d.1 d.2 7 1) []
    else
      moveDirections.foldl (fun moves d =>
        let newX := x + d.1
        let newY := y + d.2
        if isInBounds newX newY ∧ getCell b newX newY = none then
          moves ++ [[newX, newY]]
        else moves) []
  | _, _, _ => []

/-- The inner distance loop of the king case of `ChessRules.findSingleJumps`
(rules.js lines 265–298).  State: `opponentFound`, `captureX`, `captureY`;
`dist` runs from 1 while `dist < 8` (fuel 7). -/
def kingJumpRay (b : Board) (opponentColor : Color) (x y dx dy : Int) :
    Nat → Int → Bool → Int → Int → List (List Int)
  | 0, _, _, _, _ => []
  | n + 1, dist, opponentFound, captureX, captureY =>
    let checkX := x + dx * dist
    let checkY := y + dy * dist
    if ¬ isInBounds checkX checkY then []
    else
      match getCell b checkX checkY with
      | some squareContent =>
        if squareContent.color = none then []   -- malformed piece: treat as blockage
        else if squareContent.color = some opponentColor ∧ opponentFound = false then
          kingJumpRay b opponentColor x y dx dy n (dist + 1) true checkX checkY
        else []                                  -- blocked (friendly or second opponent)
      | none =>
        if opponentFound then
          [checkX, checkY, captureX, captureY] ::
            kingJumpRay b opponentColor x y dx dy n (dist + 1) opponentFound captureX captureY
        else
          kingJumpRay b opponentColor x y dx dy n (dist + 1) opponentFound captureX captureY

/-- The regular-piece case of a capture direction in
`ChessRules.findSingleJumps` (rules.js lines 300–320). -/
def manJumpDir (b : Board) (opponentColor : Color) (x y dx dy : Int) : List (List Int) :=
  let captureX := x + dx
  let captureY := y + dy
  let landX := x + dx * 2
  let landY := y + dy * 2
  if isInBounds captureX captureY ∧ isInBounds landX landY then
    match getCell b captureX captureY, getCell b landX landY with
    | some capturedPiece, none =>
      if capturedPiece.color = some opponentColor then [[landX, landY, captureX, captureY]]
      else []
    | _, _ => []
  else []

/-- Embeds `ChessRules.findSingleJumps` (rules.js lines 236–323). -/
def findSingleJumps (board : Option Board) (position : List Int)
    (piece : Option PieceJS) : List (List Int) :=
  match board, position, piece with
  | some b, [x, y], some p =>
    if p.color = none ∨ p.isKing = none then []
    else
      let isKing := p.kingB
      let opponentColor : Color :=
        if p.color = some Color.red then Color.yellow else Color.red
      all_capture.foldl (fun jumps d =>
        jumps ++
          (if isKing then kingJumpRay b opponentColor x y d.1 d.2 7 1 false (-1) (-1)
           else manJumpDir b opponentColor x y d.1 d.2)) []
  | _, _, _ => []

/-- The simulated-jump step of `findPaths` (rules.js lines 151–176): on a
fresh board copy, move the jumping piece from `(posX, posY)` to
`(nextX, nextY)` and remove the captured piece at `(capX, capY)` if that
square is occupied. -/
def hopBoard (b : Board) (posX posY nextX nextY capX capY : Int)
    (pieceToMove : PieceJS) : Board :=
  let nextBoard := setCell (setCell (copyBoard b) nextX nextY (some pieceToMove)) posX posY none
  if (getCell nextBoard capX capY).isSome then setCell nextBoard capX capY none else nextBoard

/-- The recursive path search `findPaths` inside `ChessRules.getJumpMoves`
(rules.js lines 120–197), returning the list `finalJumpSequences` it
accumulates.  A path is the flat list
`[lastX, lastY, lastCapX, lastCapY, …, firstX, firstY, firstCapX, firstCapY]`
built by `newPath = [nextX, nextY, capX, capY, ...pathSoFar]`.
Each recursive call removes the captured piece from the board, so the
JavaScript recursion depth is bounded by the number of pieces (≤ 64);
the fuel makes this explicit. -/
def findPaths (b : Board) (posX posY : Int) (p : PieceJS) (pathSoFar : List Int) :
    Nat → List (List Int)
  | 0 => []
  | fuel + 1 =>
    let singleJumps := findSingleJumps (some b) [posX, posY] (some p)
    if singleJumps = [] then
      if pathSoFar.length > 0 then [pathSoFar] else []
    else
      singleJumps.foldl (fun acc jump =>
        match jump with
        | [nextX, nextY, capX, capY] =>
          match getCell b posX posY with
          | none => acc                          -- safety check: piece missing
          | some pieceToMove =>
            if ¬ isInBounds capX capY then acc   -- invalid capture coordinates
            else if ¬ isInBounds nextX nextY then acc
            else
              let nextBoard := hopBoard b posX posY nextX nextY capX capY pieceToMove
              match getCell nextBoard nextX nextY with
              | none => acc                      -- unreachable for in-bounds coordinates
              | some pieceAfterJump0 =>
                let promotedThisStep :=
                  pieceAfterJump0.kingB = false ∧
                    shouldPromote pieceAfterJump0.color nextY = true
                let pieceAfterJump : PieceJS :=
                  if promotedThisStep then { pieceAfterJump0 with isKing := some true }
                  else pieceAfterJump0
                let nextBoard :=
                  if promotedThisStep
                  then setCell nextBoard nextX nextY (some pieceAfterJump) else nextBoard
                let newPath := [nextX, nextY, capX, capY] ++ pathSoFar
                if promotedThisStep then acc ++ [newPath]
                else acc ++ findPaths nextBoard nextX nextY pieceAfterJump newPath fuel
        | _ => acc) []

/-- The reformatting loop of `ChessRules.getJumpMoves`
(rules.js lines 202–229): keep the first hop (the last four entries)
of each path, de-duplicated. -/
def formatMoves (finalJumpSequences : List (List Int)) : List (List Int) :=
  finalJumpSequences.foldl (fun formattedMoves path =>
    if path.length < 4 ∨ path.length % 4 ≠ 0 then formattedMoves
    else
      let firstStepMove := path.drop (path.length - 4)
      if formattedMoves.contains firstStepMove then formattedMoves
      else formattedMoves ++ [firstStepMove]) []

/-- Embeds `ChessRules.getJumpMoves` (rules.js lines 109–232). -/
def getJumpMoves (board : Option Board) (position : List Int)
    (piece : Option PieceJS) : List (List Int) :=
  match board, position, piece with
  | some b, [x, y], some p => formatMoves (findPaths b x y p [] 64)
  | _, _, _ => []

/-- Embeds `ChessRules.hasMandatoryJumps` (rules.js lines 423–455).
An invalid `color` argument (`null`, a non-string, or a string other than
`'red'`/`'yellow'`) is modelled by `none`. -/
def hasMandatoryJumps (board : Option Board) (color : Option Color) : Bool :=
  match board, color with
  | some b, some c =>
    (List.range 8).any fun y => (List.range 8).any fun x =>
      match getCell b (x : Int) (y : Int) with
      | some piece =>
        piece.color = some c ∧ piece.isKing ≠ none ∧
          (findSingleJumps (some b) [(x : Int), (y : Int)] (some piece)).length > 0
      | none => false
  | _, _ => false

/-- Embeds `ChessRules.getValidMoves` (rules.js lines 22–50). -/
def getValidMoves (board : Option Board) (position : List Int)
    (piece : Option PieceJS) : List (List Int) :=
  match board, position, piece with
  | some b, [x, y], some p =>
    let mustJump := hasMandatoryJumps (some b) p.color
    let jumpMoves := getJumpMoves (some b) [x, y] (some p)
    if mustJump then jumpMoves
    else if jumpMoves.length > 0 then jumpMoves
    else getRegularMoves (some b) [x, y] (some p)
  | _, _, _ => []

/-- The result of `ChessRules.checkWinner`: `'red' | 'yellow' | 'draw' | null`
is `Option Winner`. -/
inductive Winner where
  | red
  | yellow
  | draw
deriving DecidableEq, Repr

/-- Accumulator of the scanning loop of `ChessRules.checkWinner`. -/
structure WinnerCount where
  redPieces : Nat
  yellowPieces : Nat
  redMovesAvailable : Bool
  yellowMovesAvailable : Bool
deriving Repr

/-- Body of the scanning loop of `ChessRules.checkWinner` for one square.
The source guards the move check with `if (!redMovesAvailable)` /
`if (!yellowMovesAvailable)`; since the check is effect-free, folding with
`||` computes the same flags. -/
def checkWinnerStep (b : Board) (acc : WinnerCount) (x y : Nat) : WinnerCount :=
  match getCell b (x : Int) (y : Int) with
  | some piece =>
    if piece.color = none ∨ piece.isKing = none then acc  -- malformed piece: skipped
    else if piece.color = some Color.red then
      { acc with
        redPieces := acc.redPieces + 1
        redMovesAvailable :=
          acc.redMovesAvailable ||
            ((findSingleJumps (some b) [(x : Int), (y : Int)] (some piece)).length > 0 ||
             (getRegularMoves (some b) [(x : Int), (y : Int)] (some piece)).length > 0) }
    else
      { acc with
        yellowPieces := acc.yellowPieces + 1
        yellowMovesAvailable :=
          acc.yellowMovesAvailable ||
            ((findSingleJumps (some b) [(x : Int), (y : Int)] (some piece)).length > 0 ||
             (getRegularMoves (some b) [(x : Int), (y : Int)] (some piece)).length > 0) }
  | none => acc

/-- Scanning loop of `ChessRules.checkWinner` (rules.js lines 363–395). -/
def checkWinnerScan (b : Board) : WinnerCount :=
  (List.range 8).foldl (fun acc y =>
    match b.get? y with
    | some row =>
      if row.length ≠ 8 then acc       -- invalid row: skipped
      else (List.range 8).foldl (fun acc x => checkWinnerStep b acc x y) acc
    | none => acc) ⟨0, 0, false, false⟩

/-- Embeds `ChessRules.checkWinner` (rules.js lines 351–413). -/
def checkWinner (board : Option Board) : Option Winner :=
  match board with
  | none => none
  | some b =>
    if b.length ≠ 8 then none
    else
      let s := checkWinnerScan b
      if s.redPieces = 0 ∧ s.yellowPieces > 0 then some Winner.yellow
      else if s.yellowPieces = 0 ∧ s.redPieces > 0 then some Winner.red
      else if s.redPieces = 0 ∧ s.yellowPieces = 0 then some Winner.draw
      else if s.redMovesAvailable = false ∧ s.yellowMovesAvailable = true then some Winner.yellow
      else if s.yellowMovesAvailable = false ∧ s.redMovesAvailable = true then some Winner.red
      else if s.redMovesAvailable = false ∧ s.yellowMovesAvailable = false ∧
              s.redPieces > 0 ∧ s.yellowPieces > 0 then some Winner.draw
      else none

end ChessRules

namespace Checkers

/-- An empty 8×8 board (test fixture). -/
def emptyBoard : Board := List.replicate 8 (List.replicate 8 none)

/-- Place a piece on a board (test fixture). -/
def place (b : Board) (x y : Int) (p : PieceJS) : Board := setCell b x y (some p)

/-- A red man (test fixture). -/
def redMan : PieceJS := ⟨some Color.red, some false⟩

/-- A yellow man (test fixture). -/
def yellowMan : PieceJS := ⟨some Color.yellow, some false⟩

/-- A red king (test fixture). -/
def redKing : PieceJS := ⟨some Color.red, some true⟩

/-- A yellow king (test fixture). -/
def yellowKing : PieceJS := ⟨some Color.yellow, some true⟩

end Checkers

namespace ChessRules

open Checkers

/-- C1: `getValidMoves` under the mandatory-jump obligation.  When
`hasMandatoryJumps` holds for the piece's color, the result is exactly the
piece's jump moves (so the empty list when this particular piece cannot
jump); when it does not hold, the result is the piece's jump moves if it has
any (defensive fallback) and its regular moves otherwise; the result is
never a mix: it is always either the jump-move list or the regular-move
list. -/
theorem getValidMoves_mandatory_jump_spec (b : Board) (x y : Int) (p : PieceJS) :
    (hasMandatoryJumps (some b) p.color = true →
      getValidMoves (some b) [x, y] (some p) = getJumpMoves (some b) [x, y] (some p)) ∧
    (hasMandatoryJumps (some b) p.color = true →
      getJumpMoves (some b) [x, y] (some p) = [] →
      getValidMoves (some b) [x, y] (some p) = []) ∧
    (hasMandatoryJumps (some b) p.color = false →
      getJumpMoves (some b) [x, y] (some p) ≠ [] →
      getValidMoves (some b) [x, y] (some p) = getJumpMoves (some b) [x, y] (some p)) ∧
    (hasMandatoryJumps (some b) p.color = false →
      getJumpMoves (some b) [x, y] (some p) = [] →
      getValidMoves (some b) [x, y] (some p) = getRegularMoves (some b) [x, y] (some p)) ∧
    (getValidMoves (some b) [x, y] (some p) = getJumpMoves (some b) [x, y] (some p) ∨
      getValidMoves (some b) [x, y] (some p) = getRegularMoves (some b) [x, y] (some p)) := by
  refine ⟨?_, ?_, ?_, ?_, ?_⟩ <;>
    simp only [getValidMoves]
  · intro h; simp [h]
  · intro h h2; simp [h, h2]
  · intro h h2
    simp [h, List.length_pos.mpr h2]
  · intro h h2; simp [h, h2]
  · by_cases h : hasMandatoryJumps (some b) p.color = true
    · left; simp [h]
    · rw [Bool.not_eq_true] at h
      by_cases h2 : getJumpMoves (some b) [x, y] (some p) = []
      · right; simp [h, h2]
      · left; simp [h, List.length_pos.mpr h2]

/-- Board of the opening-mandatory-jump scenario: a red man at (2,5), a
yellow man at (3,4), square (4,3) empty (test fixture). -/
def bMandJump : Board := place (place emptyBoard 2 5 redMan) 3 4 yellowMan

/-- Witness for `getValidMoves_mandatory_jump_spec` at the
opening-mandatory-jump scenario board. -/
theorem getValidMoves_mandatory_jump_spec_witness :
    hasMandatoryJumps (some bMandJump) (some Color.red) = true ∧
    getValidMoves (some bMandJump) [2, 5] (some redMan) =
      getJumpMoves (some bMandJump) [2, 5] (some redMan) :=
  ⟨by decide, (getValidMoves_mandatory_jump_spec bMandJump 2 5 redMan).1 (by decide)⟩

/-- C10 (counterexample): a piece object with a missing `color` property is
not rejected by `getValidMoves`/`getRegularMoves` — it falls into the
`yellow_move` branch of the direction selection and yields non-empty
regular moves, instead of the empty result the claim asserts for malformed
pieces. -/
theorem getValidMoves_missing_color_counterexample :
    getValidMoves (some emptyBoard) [1, 2] (some ⟨none, some false⟩) = [[0, 3], [2, 3]] ∧
    getValidMoves (some emptyBoard) [1, 2] (some ⟨none, some false⟩) ≠ [] ∧
    getRegularMoves (some emptyBoard) [1, 2] (some ⟨none, some false⟩) ≠ [] := by
  refine ⟨by decide, by decide, by decide⟩

/-- C10 (amended): the rule-engine query functions return an empty result
for a missing board, a position that is not a 2-element array, or a missing
piece, and `hasMandatoryJumps` returns `false` for a missing board or an
invalid color; `findSingleJumps` additionally validates the piece's
properties and returns the empty list when `color` or `isKing` is missing.
(`getValidMoves`, `getRegularMoves` and `getJumpMoves` do not validate the
piece's properties: see the counterexample.) -/
theorem rule_engine_malformed_inputs (b : Board) (pos : List Int) (piece : Option PieceJS)
    (p : PieceJS) (color : Option Color) :
    (getValidMoves none pos piece = [] ∧ getRegularMoves none pos piece = [] ∧
      getJumpMoves none pos piece = [] ∧ findSingleJumps none pos piece = []) ∧
    (hasMandatoryJumps none color = false) ∧
    (pos.length ≠ 2 →
      getValidMoves (some b) pos piece = [] ∧ getRegularMoves (some b) pos piece = [] ∧
      getJumpMoves (some b) pos piece = [] ∧ findSingleJumps (some b) pos piece = []) ∧
    (getValidMoves (some b) pos none = [] ∧ getRegularMoves (some b) pos none = [] ∧
      getJumpMoves (some b) pos none = [] ∧ findSingleJumps (some b) pos none = []) ∧
    (p.color = none ∨ p.isKing = none → findSingleJumps (some b) pos (some p) = []) ∧
    (hasMandatoryJumps (some b) none = false) := by
  refine ⟨⟨?_, ?_, ?_, ?_⟩, ?_, ?_, ⟨?_, ?_, ?_, ?_⟩, ?_, ?_⟩
  · cases piece <;> rcases pos with _ | ⟨a, _ | ⟨c, _ | ⟨e, t⟩⟩⟩ <;> rfl
  · cases piece <;> rcases pos with _ | ⟨a, _ | ⟨c, _ | ⟨e, t⟩⟩⟩ <;> rfl
  · cases piece <;> rcases pos with _ | ⟨a, _ | ⟨c, _ | ⟨e, t⟩⟩⟩ <;> rfl
  · cases piece <;> rcases pos with _ | ⟨a, _ | ⟨c, _ | ⟨e, t⟩⟩⟩ <;> rfl
  · cases color <;> rfl
  · intro h
    refine ⟨?_, ?_, ?_, ?_⟩ <;>
      (cases piece <;> rcases pos with _ | ⟨a, _ | ⟨c, _ | ⟨e, t⟩⟩⟩ <;>
        first | rfl | (exfalso; exact h rfl))
  · rcases pos with _ | ⟨a, _ | ⟨c, _ | ⟨e, t⟩⟩⟩ <;> rfl
  · rcases pos with _ | ⟨a, _ | ⟨c, _ | ⟨e, t⟩⟩⟩ <;> rfl
  · rcases pos with _ | ⟨a, _ | ⟨c, _ | ⟨e, t⟩⟩⟩ <;> rfl
  · rcases pos with _ | ⟨a, _ | ⟨c, _ | ⟨e, t⟩⟩⟩ <;> rfl
  · intro h
    rcases pos with _ | ⟨a, _ | ⟨c, _ | ⟨e, t⟩⟩⟩
    · rfl
    · rfl
    · simp only [findSingleJumps]
      rw [if_pos h]
    · rfl
  · rfl

/-- Witness for `rule_engine_malformed_inputs` at a 1-element position and a
piece with a missing `color` property. -/
theorem rule_engine_malformed_inputs_witness :
    (([0] : List Int).length ≠ 2 ∧ getValidMoves (some emptyBoard) [0] (some redMan) = []) ∧
    ((⟨none, some false⟩ : PieceJS).color = none ∨
        (⟨none, some false⟩ : PieceJS).isKing = none) ∧
    findSingleJumps (some emptyBoard) [1, 2] (some ⟨none, some false⟩) = [] :=
  ⟨⟨by decide,
      ((rule_engine_malformed_inputs emptyBoard [0] (some redMan) redMan none).2.2.1
        (by decide)).1⟩,
    Or.inl rfl,
    (rule_engine_malformed_inputs emptyBoard [1, 2] (some redMan)
        ⟨none, some false⟩ none).2.2.2.2.1 (Or.inl rfl)⟩

/-- Folding list-append over a list is concatenation of the per-element
results (helper for the direction loops of `rules.js`). -/
theorem foldl_append_eq_flatMap {α β : Type} (g : β → List α) (l : List β) (init : List α) :
    l.foldl (fun acc d => acc ++ g d) init = init ++ l.flatMap g := by
  induction l generalizing init with
  | nil => simp
  | cons a t ih => simp [List.foldl_cons, ih, List.append_assoc]

/-- Unfolds `isInBounds` into its four comparisons. -/
theorem isInBounds_iff (u v : Int) :
    isInBounds u v = true ↔ 0 ≤ u ∧ u < 8 ∧ 0 ≤ v ∧ v < 8 := by
  simp [isInBounds, Bool.and_eq_true, decide_eq_true_eq, and_assoc]

/-- Characterization of the king scan of `findSingleJumps` after the
opponent piece has been found (`opponentFound = true`): the ray returns a
jump landing at every distance `k` covered by the remaining fuel such that
all squares from the current distance up to `k` are empty and in bounds. -/
theorem kingJumpRay_found_mem (b : Board) (opp : Color) (x y dx dy : Int) (m : List Int) :
    ∀ (n : Nat) (dist capX capY : Int),
      (m ∈ kingJumpRay b opp x y dx dy n dist true capX capY ↔
        ∃ k : Int, dist ≤ k ∧ k < dist + n ∧
          (∀ i : Int, dist ≤ i → i ≤ k →
            isInBounds (x + dx * i) (y + dy * i) = true ∧
              getCell b (x + dx * i) (y + dy * i) = none) ∧
          m = [x + dx * k, y + dy * k, capX, capY]) := by
  intro n
  induction n with
  | zero =>
    intro dist capX capY
    simp only [kingJumpRay, List.not_mem_nil, false_iff, not_exists]
    intro k
    push_neg
    intro h1 h2
    omega
  | succ n ih =>
    intro dist capX capY
    simp only [kingJumpRay]
    by_cases hib : isInBounds (x + dx * dist) (y + dy * dist) = true
    · rw [if_neg (by simp [hib])]
      rcases hcell : getCell b (x + dx * dist) (y + dy * dist) with _ | q
      · simp only [List.mem_cons, ih, if_true, eq_self_iff_true, if_pos]
        constructor
        · rintro (rfl | ⟨k, hk1, hk2, hk3, rfl⟩)
          · refine ⟨dist, le_refl _, by omega, fun i h1 h2 => ?_, rfl⟩
            have : i = dist := by omega
            subst this; exact ⟨hib, hcell⟩
          · refine ⟨k, by omega, by omega, fun i h1 h2 => ?_, rfl⟩
            rcases eq_or_lt_of_le h1 with rfl | h1'
            · exact ⟨hib, hcell⟩
            · exact hk3 i (by omega) h2
        · rintro ⟨k, hk1, hk2, hk3, rfl⟩
          rcases eq_or_lt_of_le hk1 with rfl | hk1'
          · exact Or.inl rfl
          · exact Or.inr ⟨k, by omega, by omega, fun i h1 h2 => hk3 i (by omega) h2, rfl⟩
      · constructor
        · intro hm
          exfalso
          by_cases hq : q.color = none
          · simp [hq] at hm
          · simp [hq] at hm
        · rintro ⟨k, hk1, hk2, hk3, rfl⟩
          exfalso
          have := (hk3 dist le_rfl hk1).2
          rw [hcell] at this
          exact Option.some_ne_none q this
    · rw [if_pos (by simp [hib])]
      simp only [List.not_mem_nil, false_iff, not_exists]
      intro k
      push_neg
      intro h1 h2 h3
      exact absurd (h3 dist le_rfl h1).1 hib

/-- Characterization of the king scan of `findSingleJumps` while still
looking for the piece to jump (`opponentFound = false`): a jump is returned
iff the first occupied square along the direction holds an opponent piece
(at distance `j`) and the landing square (at distance `k > j`) together
with all squares between the opponent piece and the landing square are
empty and in bounds. -/
theorem kingJumpRay_scan_mem (b : Board) (opp : Color) (x y dx dy : Int) (m : List Int) :
    ∀ (n : Nat) (dist capX capY : Int),
      (m ∈ kingJumpRay b opp x y dx dy n dist false capX capY ↔
        ∃ j k : Int, dist ≤ j ∧ j < k ∧ k < dist + n ∧
          (∀ i : Int, dist ≤ i → i < j →
            isInBounds (x + dx * i) (y + dy * i) = true ∧
              getCell b (x + dx * i) (y + dy * i) = none) ∧
          isInBounds (x + dx * j) (y + dy * j) = true ∧
          (∃ q, getCell b (x + dx * j) (y + dy * j) = some q ∧ q.color = some opp) ∧
          (∀ i : Int, j < i → i ≤ k →
            isInBounds (x + dx * i) (y + dy * i) = true ∧
              getCell b (x + dx * i) (y + dy * i) = none) ∧
          m = [x + dx * k, y + dy * k, x + dx * j, y + dy * j]) := by
  intro n
  induction n with
  | zero =>
    intro dist capX capY
    simp only [kingJumpRay, List.not_mem_nil, false_iff, not_exists]
    intro j k
    push_neg
    intro h1 h2 h3
    omega
  | succ n ih =>
    intro dist capX capY
    simp only [kingJumpRay]
    by_cases hib : isInBounds (x + dx * dist) (y + dy * dist) = true
    · rw [if_neg (by simp [hib])]
      rcases hcell : getCell b (x + dx * dist) (y + dy * dist) with _ | q
      · simp only [if_neg (by decide : ¬ (false = true)), ih]
        constructor
        · rintro ⟨j, k, hj1, hjk, hk, hpre, hjb, hq, hpost, rfl⟩
          refine ⟨j, k, by omega, hjk, by omega, fun i h1 h2 => ?_, hjb, hq, hpost, rfl⟩
          rcases eq_or_lt_of_le h1 with rfl | h1'
          · exact ⟨hib, hcell⟩
          · exact hpre i (by omega) h2
        · rintro ⟨j, k, hj1, hjk, hk, hpre, hjb, hq, hpost, rfl⟩
          have hjne : j ≠ dist := by
            rintro rfl
            rcases hq with ⟨q, hq1, _⟩
            rw [hcell] at hq1
            exact Option.noConfusion hq1
          refine ⟨j, k, by omega, hjk, by omega, fun i h1 h2 => hpre i (by omega) h2,
            hjb, hq, hpost, rfl⟩
      · dsimp only
        by_cases hqc : q.color = some opp
        · have hqn : q.color ≠ none := by simp [hqc]
          rw [if_neg hqn, if_pos ⟨hqc, trivial⟩]
          rw [kingJumpRay_found_mem]
          constructor
          · rintro ⟨k, hk1, hk2, hk3, rfl⟩
            refine ⟨dist, k, le_refl _, by omega, by omega, fun i h1 h2 => by omega,
              hib, ⟨q, hcell, hqc⟩, fun i h1 h2 => hk3 i (by omega) h2, rfl⟩
          · rintro ⟨j, k, hj1, hjk, hk, hpre, hjb, ⟨q', hq1, hq2⟩, hpost, rfl⟩
            have hje : j = dist := by
              by_contra hne
              have := (hpre dist le_rfl (by omega)).2
              rw [hcell] at this
              exact Option.noConfusion this
            subst hje
            exact ⟨k, by omega, by omega, fun i h1 h2 => hpost i (by omega) h2, rfl⟩
        · constructor
          · intro hm
            exfalso
            by_cases hqn : q.color = none
            · rw [if_pos hqn] at hm
              exact List.not_mem_nil m hm
            · rw [if_neg hqn, if_neg (by simp [hqc])] at hm
              exact List.not_mem_nil m hm
          · rintro ⟨j, k, hj1, hjk, hk, hpre, hjb, ⟨q', hq1, hq2⟩, hpost, rfl⟩
            exfalso
            rcases eq_or_lt_of_le hj1 with rfl | hj1'
            · rw [hcell] at hq1
              cases hq1
              exact hqc hq2
            · have := (hpre dist le_rfl hj1').2
              rw [hcell] at this
              exact Option.noConfusion this
    · rw [if_pos (by simp [hib])]
      simp only [List.not_mem_nil, false_iff, not_exists]
      intro j k
      push_neg
      intro h1 h2 h3 h4 h5
      rcases eq_or_lt_of_le h1 with rfl | h1'
      · exact absurd h5 hib
      · exact absurd (h4 dist le_rfl h1').1 hib

/-- For a king, `findSingleJumps` is the concatenation of the four
direction rays. -/
theorem findSingleJumps_king_eq (b : Board) (x y : Int) (p : PieceJS) (c : Color)
    (hk : p.isKing = some true) (hc : p.color = some c) :
    findSingleJumps (some b) [x, y] (some p) =
      all_capture.flatMap (fun d =>
        kingJumpRay b (Color.other c) x y d.1 d.2 7 1 false (-1) (-1)) := by
  have h1 : ¬ (p.color = none ∨ p.isKing = none) := by simp [hc, hk]
  have h2 : p.kingB = true := by simp [PieceJS.kingB, hk]
  have h3 : (if p.color = some Color.red then Color.yellow else Color.red) = Color.other c := by
    cases c <;> simp [hc, Color.other]
  simp only [findSingleJumps, if_neg h1, h2, h3, if_true]
  rw [foldl_append_eq_flatMap]
  simp

/-- Membership form of `findSingleJumps_king_eq`. -/
theorem findSingleJumps_king_mem (b : Board) (x y : Int) (p : PieceJS) (c : Color)
    (hk : p.isKing = some true) (hc : p.color = some c) (m : List Int) :
    m ∈ findSingleJumps (some b) [x, y] (some p) ↔
      ∃ d ∈ all_capture, m ∈ kingJumpRay b (Color.other c) x y d.1 d.2 7 1 false (-1) (-1) := by
  rw [findSingleJumps_king_eq b x y p c hk hc]
  simp [List.mem_flatMap]

/-- Board of the king-long-jump scenario: a red king at (0,7), a yellow man
at (3,4), all other squares empty (test fixture). -/
def bKingLong : Board := place (place emptyBoard 0 7 redKing) 3 4 yellowMan

/-- C4: for a king, `findSingleJumps` scans each of the four diagonals
outward: a jump exists in a direction iff the first occupied square along
it (at distance `j`) holds an opponent piece and the landing square (at
distance `k > j`) and every square strictly between the opponent piece and
the landing square are empty and in bounds — so every empty square beyond
the opponent piece up to the next obstruction or the board edge is a
distinct landing square.  In particular, in the king-long-jump scenario
(red king at (0,7), yellow man at (3,4), everything else empty) a jump is
returned landing at each of (4,3), (5,2), (6,1) and (7,0), all capturing
(3,4). -/
theorem findSingleJumps_king_ray_spec :
    (∀ (b : Board) (x y : Int) (p : PieceJS) (c : Color),
      p.isKing = some true → p.color = some c → isInBounds x y = true →
      ∀ m : List Int,
        (m ∈ findSingleJumps (some b) [x, y] (some p) ↔
          ∃ dx dy : Int, (dx, dy) ∈ all_capture ∧
            ∃ j k : Int, 1 ≤ j ∧ j < k ∧
              (∀ i : Int, 1 ≤ i → i < j →
                isInBounds (x + dx * i) (y + dy * i) = true ∧
                  getCell b (x + dx * i) (y + dy * i) = none) ∧
              isInBounds (x + dx * j) (y + dy * j) = true ∧
              (∃ q, getCell b (x + dx * j) (y + dy * j) = some q ∧
                q.color = some (Color.other c)) ∧
              (∀ i : Int, j < i → i ≤ k →
                isInBounds (x + dx * i) (y + dy * i) = true ∧
                  getCell b (x + dx * i) (y + dy * i) = none) ∧
              m = [x + dx * k, y + dy * k, x + dx * j, y + dy * j])) ∧
    findSingleJumps (some bKingLong) [0, 7] (some redKing) =
      [[4, 3, 3, 4], [5, 2, 3, 4], [6, 1, 3, 4], [7, 0, 3, 4]] := by
  constructor
  · intro b x y p c hk hc hxy m
    rw [findSingleJumps_king_mem b x y p c hk hc]
    constructor
    · rintro ⟨⟨dx, dy⟩, hd, hm⟩
      rw [kingJumpRay_scan_mem] at hm
      obtain ⟨j, k, h1, h2, h3, h4, h5, h6, h7, h8⟩ := hm
      exact ⟨dx, dy, hd, j, k, h1, h2, h4, h5, h6, h7, h8⟩
    · rintro ⟨dx, dy, hd, j, k, h1, h2, h4, h5, h6, h7, h8⟩
      refine ⟨(dx, dy), hd, ?_⟩
      rw [kingJumpRay_scan_mem]
      refine ⟨j, k, h1, h2, ?_, h4, h5, h6, h7, h8⟩
      have hkb := (h7 k h2 le_rfl).1
      rw [isInBounds_iff] at hkb
      rw [isInBounds_iff] at hxy
      simp only [all_capture, List.mem_cons, List.mem_singleton, Prod.mk.injEq,
        List.not_mem_nil, or_false] at hd
      rcases hd with ⟨rfl, rfl⟩ | ⟨rfl, rfl⟩ | ⟨rfl, rfl⟩ | ⟨rfl, rfl⟩ <;> omega
  · decide

/-- Witness for `findSingleJumps_king_ray_spec`: the landing square (5,2),
two squares past the jumped piece, is derived from the characterization at
the scenario board. -/
theorem findSingleJumps_king_ray_spec_witness :
    ([5, 2, 3, 4] : List Int) ∈ findSingleJumps (some bKingLong) [0, 7] (some redKing) :=
  (findSingleJumps_king_ray_spec.1 bKingLong 0 7 redKing Color.red rfl rfl (by decide)
    [5, 2, 3, 4]).mpr
    ⟨1, -1, by decide, 3, 5, by decide, by decide,
      (by intro i h1 h2
          have : i = 1 ∨ i = 2 := by omega
          rcases this with rfl | rfl <;> exact ⟨by decide, by decide⟩),
      by decide, ⟨yellowMan, by decide, by decide⟩,
      (by intro i h1 h2
          have : i = 4 ∨ i = 5 := by omega
          rcases this with rfl | rfl <;> exact ⟨by decide, by decide⟩),
      by decide⟩

/-- A well-formed piece at a cell obtained through `getCell` has both
properties. -/
theorem WFPieces_getCell {b : Board} (hb : WFPieces b) {x y : Int} {p : PieceJS}
    (h : getCell b x y = some p) : p.color ≠ none ∧ p.isKing ≠ none := by
  unfold getCell at h
  split at h
  · rcases hrow : b.get? y.toNat with _ | row
    · rw [hrow] at h; exact absurd h (by simp)
    · rw [hrow] at h
      dsimp only at h
      rcases hc : row.get? x.toNat with _ | cell
      · rw [hc] at h; exact absurd h (by simp)
      · rw [hc] at h
        simp only [Option.getD_some] at h
        subst h
        exact hb row (List.get?_mem hrow) (some p) (List.get?_mem hc) p rfl
  · exact absurd h (by simp)

/-- Square (x, y) holds a piece of color `c` (spec-level helper for
`checkWinner`). -/
def isColorAt (b : Board) (c : Color) (x y : Nat) : Bool :=
  match getCell b (x : Int) (y : Int) with
  | some p => p.color = some c
  | none => false

/-- Square (x, y) holds a piece of color `c` that has a single jump or a
regular move (spec-level helper for `checkWinner`). -/
def canMoveAt (b : Board) (c : Color) (x y : Nat) : Bool :=
  match getCell b (x : Int) (y : Int) with
  | some p => p.color = some c &&
      ((findSingleJumps (some b) [(x : Int), (y : Int)] (some p)).length > 0 ||
       (getRegularMoves (some b) [(x : Int), (y : Int)] (some p)).length > 0)
  | none => false

/-- Number of pieces of color `c` on the board (spec-level). -/
def sidePieces (b : Board) (c : Color) : Nat :=
  ((List.range 8).map (fun y => (List.range 8).countP (fun x => isColorAt b c x y))).sum

/-- Some piece of color `c` has an available jump or regular move
(spec-level). -/
def sideHasMove (b : Board) (c : Color) : Bool :=
  (List.range 8).any fun y => (List.range 8).any fun x => canMoveAt b c x y

/-- The inner (per-row) loop of `checkWinner` accumulates piece counts and
move-availability flags for the squares it scans. -/
theorem checkWinner_row_fold (b : Board) (hb : WFPieces b) (y : Nat) :
    ∀ (xs : List Nat) (acc : WinnerCount),
      xs.foldl (fun acc x => checkWinnerStep b acc x y) acc =
        ⟨acc.redPieces + xs.countP (fun x => isColorAt b Color.red x y),
         acc.yellowPieces + xs.countP (fun x => isColorAt b Color.yellow x y),
         acc.redMovesAvailable || xs.any (fun x => canMoveAt b Color.red x y),
         acc.yellowMovesAvailable || xs.any (fun x => canMoveAt b Color.yellow x y)⟩ := by
  intro xs
  induction xs with
  | nil => intro acc; simp
  | cons x xs ih =>
    intro acc
    rw [List.foldl_cons, ih]
    rcases hcell : getCell b (x : Int) (y : Int) with _ | p
    · have h1 : isColorAt b Color.red x y = false := by simp [isColorAt, hcell]
      have h2 : isColorAt b Color.yellow x y = false := by simp [isColorAt, hcell]
      have h3 : canMoveAt b Color.red x y = false := by simp [canMoveAt, hcell]
      have h4 : canMoveAt b Color.yellow x y = false := by simp [canMoveAt, hcell]
      have hstep : checkWinnerStep b acc x y = acc := by
        simp [checkWinnerStep, hcell]
      rw [hstep]
      simp [List.countP_cons, h1, h2, h3, h4, List.any_cons]
    · obtain ⟨hcol, hking⟩ := WFPieces_getCell hb hcell
      have hnm : ¬ (p.color = none ∨ p.isKing = none) := by
        simp [hcol, hking]
      rcases hcolcase : p.color with _ | c
      · exact absurd hcolcase hcol
      cases c with
      | red =>
        have hstep : checkWinnerStep b acc x y =
            { acc with
              redPieces := acc.redPieces + 1
              redMovesAvailable :=
                acc.redMovesAvailable ||
                  ((findSingleJumps (some b) [(x : Int), (y : Int)] (some p)).length > 0 ||
                   (getRegularMoves (some b) [(x : Int), (y : Int)] (some p)).length > 0) } := by
          simp [checkWinnerStep, hcell, hnm, hcolcase, hking]
        rw [hstep]
        have h1 : isColorAt b Color.red x y = true := by simp [isColorAt, hcell, hcolcase]
        have h2 : isColorAt b Color.yellow x y = false := by simp [isColorAt, hcell, hcolcase]
        have h3 : canMoveAt b Color.red x y =
            ((findSingleJumps (some b) [(x : Int), (y : Int)] (some p)).length > 0 ||
             (getRegularMoves (some b) [(x : Int), (y : Int)] (some p)).length > 0) := by
          simp [canMoveAt, hcell, hcolcase]
        have h4 : canMoveAt b Color.yellow x y = false := by simp [canMoveAt, hcell, hcolcase]
        rcases acc with ⟨ar, ay, am, aym⟩
        simp only [List.countP_cons, List.any_cons, h1, h2, h3, h4, WinnerCount.mk.injEq]
        refine ⟨by simp <;> omega, by simp <;> omega, ?_, ?_⟩ <;> simp [Bool.or_assoc]
      | yellow =>
        have hstep : checkWinnerStep b acc x y =
            { acc with
              yellowPieces := acc.yellowPieces + 1
              yellowMovesAvailable :=
                acc.yellowMovesAvailable ||
                  ((findSingleJumps (some b) [(x : Int), (y : Int)] (some p)).length > 0 ||
                   (getRegularMoves (some b) [(x : Int), (y : Int)] (some p)).length > 0) } := by
          simp [checkWinnerStep, hcell, hnm, hcolcase, hking]
        rw [hstep]
        have h1 : isColorAt b Color.red x y = false := by simp [isColorAt, hcell, hcolcase]
        have h2 : isColorAt b Color.yellow x y = true := by simp [isColorAt, hcell, hcolcase]
        have h3 : canMoveAt b Color.red x y = false := by simp [canMoveAt, hcell, hcolcase]
        have h4 : canMoveAt b Color.yellow x y =
            ((findSingleJumps (some b) [(x : Int), (y : Int)] (some p)).length > 0 ||
             (getRegularMoves (some b) [(x : Int), (y : Int)] (some p)).length > 0) := by
          simp [canMoveAt, hcell, hcolcase]
        rcases acc with ⟨ar, ay, am, aym⟩
        simp only [List.countP_cons, List.any_cons, h1, h2, h3, h4, WinnerCount.mk.injEq]
        refine ⟨by simp <;> omega, by simp <;> omega, ?_, ?_⟩ <;> simp [Bool.or_assoc]

/-- The outer (per-board) loop of `checkWinner` accumulates the per-row
results of `checkWinner_row_fold`. -/
theorem checkWinner_scan_fold (b : Board) (hb : WFPieces b) :
    ∀ (ys : List Nat) (acc : WinnerCount),
      (∀ y ∈ ys, ∃ row, b.get? y = some row ∧ row.length = 8) →
      ys.foldl (fun acc y =>
          match b.get? y with
          | some row =>
            if row.length ≠ 8 then acc
            else (List.range 8).foldl (fun acc x => checkWinnerStep b acc x y) acc
          | none => acc) acc =
        ⟨acc.redPieces +
            ((ys.map (fun y => (List.range 8).countP (fun x => isColorAt b Color.red x y))).sum),
         acc.yellowPieces +
            ((ys.map (fun y => (List.range 8).countP (fun x => isColorAt b Color.yellow x y))).sum),
         acc.redMovesAvailable ||
            (ys.any fun y => (List.range 8).any fun x => canMoveAt b Color.red x y),
         acc.yellowMovesAvailable ||
            (ys.any fun y => (List.range 8).any fun x => canMoveAt b Color.yellow x y)⟩ := by
  intro ys
  induction ys with
  | nil => intro acc h; simp
  | cons y ys ih =>
    intro acc h
    obtain ⟨row, hrow, hlen⟩ := h y (List.mem_cons_self y ys)
    rw [List.foldl_cons]
    have hred : (match b.get? y with
        | some row =>
          if row.length ≠ 8 then acc
          else (List.range 8).foldl (fun acc x => checkWinnerStep b acc x y) acc
        | none => acc) =
        (List.range 8).foldl (fun acc x => checkWinnerStep b acc x y) acc := by
      rw [hrow]
      simp [hlen]
    rw [hred, checkWinner_row_fold b hb y, ih _ (fun y hy => h y (List.mem_cons_of_mem _ hy))]
    rcases acc with ⟨ar, ay, am, aym⟩
    simp only [List.map_cons, List.sum_cons, List.any_cons, WinnerCount.mk.injEq]
    refine ⟨by omega, by omega, ?_, ?_⟩ <;> simp [Bool.or_assoc]

/-- The scan of `checkWinner` computes the spec-level piece counts and
move-availability flags. -/
theorem checkWinnerScan_eq (b : Board) (h8 : WF8 b) (hb : WFPieces b) :
    checkWinnerScan b =
      ⟨sidePieces b Color.red, sidePieces b Color.yellow,
       sideHasMove b Color.red, sideHasMove b Color.yellow⟩ := by
  unfold checkWinnerScan
  rw [checkWinner_scan_fold b hb (List.range 8) ⟨0, 0, false, false⟩]
  · simp [sidePieces, sideHasMove]
  · intro y hy
    rw [List.mem_range] at hy
    have h81 := h8.1
    have hlt : y < b.length := by omega
    rcases hget : b.get? y with _ | row
    · rw [List.get?_eq_none] at hget; omega
    · exact ⟨row, rfl, h8.2 row (List.get?_mem hget)⟩

/-- Explicit decision cascade computed by `checkWinner` on a well-formed
board, in terms of the spec-level counts and flags. -/
theorem checkWinner_spec_eq (b : Board) (h8 : WF8 b) (hb : WFPieces b) :
    checkWinner (some b) =
      (if sidePieces b Color.red = 0 ∧ sidePieces b Color.yellow > 0 then some Winner.yellow
       else if sidePieces b Color.yellow = 0 ∧ sidePieces b Color.red > 0 then some Winner.red
       else if sidePieces b Color.red = 0 ∧ sidePieces b Color.yellow = 0 then some Winner.draw
       else if sideHasMove b Color.red = false ∧ sideHasMove b Color.yellow = true then
         some Winner.yellow
       else if sideHasMove b Color.yellow = false ∧ sideHasMove b Color.red = true then
         some Winner.red
       else if sideHasMove b Color.red = false ∧ sideHasMove b Color.yellow = false ∧
           sidePieces b Color.red > 0 ∧ sidePieces b Color.yellow > 0 then some Winner.draw
       else none) := by
  have hlen : ¬ (b.length ≠ 8) := by simp [h8.1]
  simp only [checkWinner, if_neg hlen, checkWinnerScan_eq b h8 hb]

/-- C5: on a well-formed board, `checkWinner` implements exactly the
outcome policy of the spec — a side with zero pieces loses (both zero is a
draw); otherwise a side with no available jump and no regular move
anywhere loses, and both sides moveless is a draw; in every other case the
result is `null` — and consequently it returns a decided result iff one
side has zero pieces or zero available moves. -/
theorem checkWinner_outcome_spec :
    (∀ b : Board, WF8 b → WFPieces b →
      checkWinner (some b) =
        (if sidePieces b Color.red = 0 ∧ sidePieces b Color.yellow > 0 then some Winner.yellow
         else if sidePieces b Color.yellow = 0 ∧ sidePieces b Color.red > 0 then some Winner.red
         else if sidePieces b Color.red = 0 ∧ sidePieces b Color.yellow = 0 then some Winner.draw
         else if sideHasMove b Color.red = false ∧ sideHasMove b Color.yellow = true then
           some Winner.yellow
         else if sideHasMove b Color.yellow = false ∧ sideHasMove b Color.red = true then
           some Winner.red
         else if sideHasMove b Color.red = false ∧ sideHasMove b Color.yellow = false ∧
             sidePieces b Color.red > 0 ∧ sidePieces b Color.yellow > 0 then some Winner.draw
         else none)) ∧
    (∀ b : Board, WF8 b → WFPieces b →
      ((checkWinner (some b)).isSome = true ↔
        sidePieces b Color.red = 0 ∨ sidePieces b Color.yellow = 0 ∨
          sideHasMove b Color.red = false ∨ sideHasMove b Color.yellow = false)) := by
  refine ⟨fun b h8 hb => checkWinner_spec_eq b h8 hb, fun b h8 hb => ?_⟩
  rw [checkWinner_spec_eq b h8 hb]
  split_ifs with h1 h2 h3 h4 h5 h6
  · simp [h1.1]
  · simp [h2.1]
  · simp [h3.1]
  · simp [h4.1]
  · simp [h5.1]
  · simp [h6.1]
  · simp only [Option.isSome_none, Bool.false_eq_true, false_iff]
    rintro (hr | hyl | hrm | hym)
    · rcases Nat.eq_zero_or_pos (sidePieces b Color.yellow) with h | h
      · exact h3 ⟨hr, h⟩
      · exact h1 ⟨hr, h⟩
    · rcases Nat.eq_zero_or_pos (sidePieces b Color.red) with h | h
      · exact h3 ⟨h, hyl⟩
      · exact h2 ⟨hyl, h⟩
    · rcases Nat.eq_zero_or_pos (sidePieces b Color.red) with hr | hr
      · rcases Nat.eq_zero_or_pos (sidePieces b Color.yellow) with h | h
        · exact h3 ⟨hr, h⟩
        · exact h1 ⟨hr, h⟩
      · rcases Nat.eq_zero_or_pos (sidePieces b Color.yellow) with hyl | hyl
        · exact h2 ⟨hyl, hr⟩
        · rcases Bool.eq_false_or_eq_true (sideHasMove b Color.yellow) with hym | hym
          · exact h4 ⟨hrm, hym⟩
          · exact h6 ⟨hrm, hym, hr, hyl⟩
    · rcases Nat.eq_zero_or_pos (sidePieces b Color.red) with hr | hr
      · rcases Nat.eq_zero_or_pos (sidePieces b Color.yellow) with h | h
        · exact h3 ⟨hr, h⟩
        · exact h1 ⟨hr, h⟩
      · rcases Nat.eq_zero_or_pos (sidePieces b Color.yellow) with hyl | hyl
        · exact h2 ⟨hyl, hr⟩
        · rcases Bool.eq_false_or_eq_true (sideHasMove b Color.red) with hrm | hrm
          · exact h5 ⟨hym, hrm⟩
          · exact h6 ⟨hrm, hym, hr, hyl⟩

/-- Witness for `checkWinner_outcome_spec` at the opening-mandatory-jump
scenario board (both sides have a piece and a move, so the game is
undecided). -/
theorem checkWinner_outcome_spec_witness :
    WF8 bMandJump ∧ WFPieces bMandJump ∧
    ((checkWinner (some bMandJump)).isSome = true ↔
      sidePieces bMandJump Color.red = 0 ∨ sidePieces bMandJump Color.yellow = 0 ∨
        sideHasMove bMandJump Color.red = false ∨ sideHasMove bMandJump Color.yellow = false) :=
  ⟨by decide, by decide, checkWinner_outcome_spec.2 bMandJump (by decide) (by decide)⟩

end ChessRules

namespace ChessRules

open Checkers

/-- Coordinates reaching a cell through `getCell` are nonnegative. -/
theorem getCell_nonneg {b : Board} {x y : Int} {p : PieceJS} (h : getCell b x y = some p) :
    0 ≤ x ∧ 0 ≤ y := by
  unfold getCell at h
  split at h
  · assumption
  · exact absurd h (by simp)

theorem getCell_natCast (b : Board) (u v : Nat) :
    getCell b (u : Int) (v : Int) = (((b.get? v).getD []).get? u).getD none := by
  unfold getCell
  rw [if_pos ⟨Int.natCast_nonneg u, Int.natCast_nonneg v⟩]
  rw [Int.toNat_natCast, Int.toNat_natCast]
  rcases hrow : b.get? v with _ | row <;> simp

theorem getCell_copyBoard (b : Board) (x y : Int) :
    getCell (copyBoard b) x y = if isInBounds x y = true then getCell b x y else none := by
  by_cases hib : isInBounds x y = true
  · rw [if_pos hib]
    rw [isInBounds_iff] at hib
    obtain ⟨h1, h2, h3, h4⟩ := hib
    obtain ⟨u, rfl⟩ := Int.eq_ofNat_of_zero_le h1
    obtain ⟨v, rfl⟩ := Int.eq_ofNat_of_zero_le h3
    have hu : u < 8 := by omega
    have hv : v < 8 := by omega
    rw [getCell_natCast]
    unfold copyBoard
    simp only [Int.ofNat_eq_natCast]
    rw [List.get?_map, List.get?_range hv]
    simp only [Option.map_some', Option.getD_some]
    rw [List.get?_map, List.get?_range hu]
    simp
  · rw [if_neg hib]
    rw [isInBounds_iff] at hib
    push_neg at hib
    by_cases hxy : 0 ≤ x ∧ 0 ≤ y
    · obtain ⟨u, rfl⟩ := Int.eq_ofNat_of_zero_le hxy.1
      obtain ⟨v, rfl⟩ := Int.eq_ofNat_of_zero_le hxy.2
      have h8 : 8 ≤ u ∨ 8 ≤ v := by omega
      rw [getCell_natCast]
      unfold copyBoard
      simp only [Int.ofNat_eq_natCast]
      rcases h8 with h8 | h8
      · rcases hy : ((List.range 8).map (fun y : Nat =>
            (List.range 8).map (fun x : Nat => getCell b (x : Int) (y : Int)))).get? v
            with _ | row
        · simp
        · simp only [Option.getD_some]
          rw [List.get?_map] at hy
          rcases hyy : (List.range 8).get? v with _ | vv
          · rw [hyy] at hy; exact absurd hy (by simp)
          · rw [hyy] at hy
            simp only [Option.map_some'] at hy
            cases hy
            have hnone : (List.range 8).get? u = none :=
              List.get?_eq_none.mpr (by simpa using h8)
            rw [List.get?_map, hnone]
            simp
      · have hnone : (List.range 8).get? v = none :=
          List.get?_eq_none.mpr (by simpa using h8)
        rw [List.get?_map, hnone]
        simp
    · unfold getCell
      rw [if_neg hxy]

theorem WF8_copyBoard (b : Board) : WF8 (copyBoard b) := by
  constructor
  · simp [copyBoard]
  · intro row hrow
    simp only [copyBoard, List.mem_map] at hrow
    obtain ⟨y, _, rfl⟩ := hrow
    simp

theorem WF8_setCell {b : Board} (h : WF8 b) (x y : Int) (v : Cell) : WF8 (setCell b x y v) := by
  unfold setCell
  split
  · rcases hrow : b.get? y.toNat with _ | row
    · exact h
    · constructor
      · simp [h.1]
      · intro r hr
        rcases List.mem_or_eq_of_mem_set hr with hmem | rfl
        · exact h.2 r hmem
        · rw [List.length_set]
          exact h.2 row (List.get?_mem hrow)
  · exact h

theorem getCell_setCell_self {b : Board} (h : WF8 b) {x y : Int}
    (hib : isInBounds x y = true) (v : Cell) : getCell (setCell b x y v) x y = v := by
  rw [isInBounds_iff] at hib
  obtain ⟨h1, h2, h3, h4⟩ := hib
  have h81 := h.1
  have hylt : y.toNat < b.length := by omega
  rcases hrow : b.get? y.toNat with _ | row
  · rw [List.get?_eq_none] at hrow; omega
  · have hrlen : row.length = 8 := h.2 row (List.get?_mem hrow)
    unfold setCell getCell
    rw [if_pos ⟨h1, h3⟩, hrow, if_pos ⟨h1, h3⟩]
    rw [List.get?_set_eq_of_lt _ hylt]
    dsimp only
    rw [List.get?_set_eq_of_lt _ (by omega)]
    simp

theorem getCell_setCell_ne (b : Board) {x y x' y' : Int} (v : Cell)
    (hne : x' ≠ x ∨ y' ≠ y) (hx' : 0 ≤ x') (hy' : 0 ≤ y')
    (hx : 0 ≤ x) (hy : 0 ≤ y) :
    getCell (setCell b x y v) x' y' = getCell b x' y' := by
  unfold setCell
  split
  · rcases hrow : b.get? y.toNat with _ | row
    · rfl
    · have hylt : y.toNat < b.length := by
        by_contra hh
        rw [List.get?_eq_none.mpr (by omega)] at hrow
        exact Option.noConfusion hrow
      unfold getCell
      rw [if_pos ⟨hx', hy'⟩, if_pos ⟨hx', hy'⟩]
      by_cases hyy : y'.toNat = y.toNat
      · have hxx : x.toNat ≠ x'.toNat := by
          rcases hne with hh | hh
          · omega
          · exfalso; apply hh; omega
        rw [hyy, List.get?_set_eq_of_lt _ hylt, hrow]
        dsimp only
        rw [List.get?_set_ne _ _ hxx]
      · rw [List.get?_set_ne _ _ (fun hh => hyy hh.symm)]
  · rfl

/-- Contribution of one jump to the fold inside findPaths. -/
def findPathsContrib (b : Board) (posX posY : Int) (p : PieceJS) (pathSoFar : List Int)
    (fuel : Nat) (jump : List Int) : List (List Int) :=
  match jump with
  | [nextX, nextY, capX, capY] =>
    match getCell b posX posY with
    | none => []
    | some pieceToMove =>
      if ¬ isInBounds capX capY then []
      else if ¬ isInBounds nextX nextY then []
      else
        let nextBoard := hopBoard b posX posY nextX nextY capX capY pieceToMove
        match getCell nextBoard nextX nextY with
        | none => []
        | some pieceAfterJump0 =>
          let promotedThisStep :=
            pieceAfterJump0.kingB = false ∧ shouldPromote pieceAfterJump0.color nextY = true
          let pieceAfterJump : PieceJS :=
            if promotedThisStep then { pieceAfterJump0 with isKing := some true }
            else pieceAfterJump0
          let nextBoard2 :=
            if promotedThisStep then setCell nextBoard nextX nextY (some pieceAfterJump)
            else nextBoard
          let newPath := [nextX, nextY, capX, capY] ++ pathSoFar
          if promotedThisStep then [newPath]
          else findPaths nextBoard2 nextX nextY pieceAfterJump newPath fuel
  | _ => []

theorem foldl_append_contrib {α β : Type} (f : List α → β → List α) (g : β → List α)
    (hf : ∀ acc j, f acc j = acc ++ g j) (l : List β) (init : List α) :
    l.foldl f init = init ++ l.flatMap g := by
  induction l generalizing init with
  | nil => simp
  | cons a t ih => rw [List.foldl_cons, hf, ih, List.flatMap_cons, List.append_assoc]

theorem findPaths_succ (b : Board) (posX posY : Int) (p : PieceJS) (pathSoFar : List Int)
    (fuel : Nat) :
    findPaths b posX posY p pathSoFar (fuel + 1) =
      (if findSingleJumps (some b) [posX, posY] (some p) = [] then
        (if pathSoFar.length > 0 then [pathSoFar] else [])
      else
        (findSingleJumps (some b) [posX, posY] (some p)).flatMap
          (findPathsContrib b posX posY p pathSoFar fuel)) := by
  rw [findPaths]
  by_cases hsj : findSingleJumps (some b) [posX, posY] (some p) = []
  · rw [if_pos hsj, if_pos hsj]
  · rw [if_neg hsj, if_neg hsj]
    rw [foldl_append_contrib _ (findPathsContrib b posX posY p pathSoFar fuel)]
    · simp
    · intro acc j
      rcases j with _ | ⟨nx, _ | ⟨ny, _ | ⟨cx, _ | ⟨cy, _ | ⟨e, t⟩⟩⟩⟩⟩ <;>
        simp only [findPathsContrib] <;> try simp
      rcases hc : getCell b posX posY with _ | ptm
      · simp
      · dsimp only
        by_cases h1 : isInBounds cx cy = false
        · rw [if_pos h1, if_pos h1]; simp
        · rw [if_neg h1, if_neg h1]
          by_cases h2 : isInBounds nx ny = false
          · rw [if_pos h2, if_pos h2]; simp
          · rw [if_neg h2, if_neg h2]
            rcases hnb : getCell (hopBoard b posX posY nx ny cx cy ptm) nx ny with _ | pa0
            · simp
            · dsimp only
              by_cases hpr : pa0.kingB = false ∧ shouldPromote pa0.color ny = true
              · simp only [if_pos hpr]
              · simp only [if_neg hpr]


theorem manJumpDir_sound (b : Board) (opp : Color) (x y dx dy : Int) (m : List Int)
    (hm : m ∈ manJumpDir b opp x y dx dy) :
    ∃ nx ny cx cy : Int, m = [nx, ny, cx, cy] ∧
      isInBounds nx ny = true ∧ isInBounds cx cy = true ∧
      getCell b nx ny = none ∧
      ∃ q, getCell b cx cy = some q ∧ q.color = some opp := by
  unfold manJumpDir at hm
  dsimp only at hm
  split at hm
  case isTrue hb =>
    split at hm
    case h_1 q heq1 heq2 =>
      split at hm
      case isTrue hq =>
        rw [List.mem_singleton] at hm
        subst hm
        exact ⟨x + dx * 2, y + dy * 2, x + dx, y + dy, rfl, by
          simpa using hb.2, by simpa using hb.1, heq2, q, heq1, hq⟩
      case isFalse => simp at hm
    case h_2 => simp at hm
  case isFalse => simp at hm

theorem findSingleJumps_sound (b : Board) (x y : Int) (p : PieceJS) (m : List Int)
    (hm : m ∈ findSingleJumps (some b) [x, y] (some p)) :
    ∃ nx ny cx cy : Int, m = [nx, ny, cx, cy] ∧
      isInBounds nx ny = true ∧ isInBounds cx cy = true ∧
      getCell b nx ny = none ∧
      ∃ q, getCell b cx cy = some q ∧
        q.color = some (if p.color = some Color.red then Color.yellow else Color.red) := by
  rw [show findSingleJumps (some b) [x, y] (some p) =
      (if p.color = none ∨ p.isKing = none then []
       else
        all_capture.foldl (fun jumps d =>
          jumps ++
            (if p.kingB then
              kingJumpRay b (if p.color = some Color.red then Color.yellow else Color.red)
                x y d.1 d.2 7 1 false (-1) (-1)
             else manJumpDir b (if p.color = some Color.red then Color.yellow else Color.red)
                x y d.1 d.2)) []) from rfl] at hm
  split at hm
  · simp at hm
  · rw [foldl_append_eq_flatMap] at hm
    simp only [List.nil_append, List.mem_flatMap] at hm
    obtain ⟨d, hd, hm⟩ := hm
    by_cases hk : p.kingB = true
    · rw [if_pos hk] at hm
      rw [kingJumpRay_scan_mem] at hm
      obtain ⟨j, k, h1, h2, h3, hpre, hjb, ⟨q, hq1, hq2⟩, hpost, rfl⟩ := hm
      exact ⟨x + d.1 * k, y + d.2 * k, x + d.1 * j, y + d.2 * j, rfl,
        (hpost k h2 le_rfl).1, hjb, (hpost k h2 le_rfl).2, q, hq1, hq2⟩
    · rw [Bool.not_eq_true] at hk
      rw [if_neg (by simp [hk])] at hm
      exact manJumpDir_sound b _ x y d.1 d.2 m hm


theorem getCell_setCell_ne2 (b : Board) {x y x' y' : Int} (v : Cell)
    (hne : ¬ (x' = x ∧ y' = y)) (hx' : 0 ≤ x') (hy' : 0 ≤ y') :
    getCell (setCell b x y v) x' y' = getCell b x' y' := by
  by_cases hxy : 0 ≤ x ∧ 0 ≤ y
  · refine getCell_setCell_ne b v ?_ hx' hy' hxy.1 hxy.2
    by_contra hh
    push_neg at hh
    exact hne ⟨hh.1, hh.2⟩
  · unfold setCell
    rw [if_neg hxy]

theorem getCell_hopBoard_land (b : Board) (x y nx ny cx cy : Int) (p : PieceJS)
    (hnb : isInBounds nx ny = true)
    (hne1 : ¬ (nx = x ∧ ny = y))
    (hne2 : ¬ (nx = cx ∧ ny = cy)) :
    getCell (hopBoard b x y nx ny cx cy p) nx ny = some p := by
  have h0 := (isInBounds_iff nx ny).mp hnb
  have h1 : getCell (setCell (setCell (copyBoard b) nx ny (some p)) x y none) nx ny = some p := by
    rw [getCell_setCell_ne2 _ _ hne1 h0.1 h0.2.2.1]
    exact getCell_setCell_self (WF8_copyBoard b) hnb _
  unfold hopBoard
  dsimp only
  split
  · rw [getCell_setCell_ne2 _ _ hne2 h0.1 h0.2.2.1]
    exact h1
  · exact h1

theorem findPaths_promo_blocks :
    ∀ (fuel : Nat) (b : Board) (x y : Int) (p : PieceJS) (path : List Int) (c : Color),
      getCell b x y = some p →
      p.color = some c →
      p.kingB = false →
      path.length % 4 = 0 →
      (∀ i : Nat, 4 * i + 1 < path.length →
        shouldPromote (some c) (path.getD (4 * i + 1) 0) = false) →
      ∀ seq ∈ findPaths b x y p path fuel,
        seq.length % 4 = 0 ∧ 0 < seq.length ∧
          ∀ i : Nat, 1 ≤ i → 4 * i + 1 < seq.length →
            shouldPromote (some c) (seq.getD (4 * i + 1) 0) = false := by
  intro fuel
  induction fuel with
  | zero =>
    intro b x y p path c _ _ _ _ _ seq hseq
    simp [findPaths] at hseq
  | succ n ih =>
    intro b x y p path c hcell hcol hking hlen hpath seq hseq
    rw [findPaths_succ] at hseq
    split at hseq
    case isTrue hsj =>
      split at hseq
      case isTrue hp =>
        rw [List.mem_singleton] at hseq
        subst hseq
        exact ⟨hlen, hp, fun i h1 h2 => hpath i h2⟩
      case isFalse => simp at hseq
    case isFalse hsj =>
      rw [List.mem_flatMap] at hseq
      obtain ⟨jump, hj, hseq⟩ := hseq
      obtain ⟨nx, ny, cx, cy, rfl, hnb, hcb, hland, q, hcap, hqc⟩ :=
        findSingleJumps_sound b x y p _ hj
      have hne1 : ¬ (nx = x ∧ ny = y) := by
        rintro ⟨rfl, rfl⟩; rw [hcell] at hland; exact Option.noConfusion hland
      have hne2 : ¬ (nx = cx ∧ ny = cy) := by
        rintro ⟨rfl, rfl⟩; rw [hcap] at hland; exact Option.noConfusion hland
      have hhop := getCell_hopBoard_land b x y nx ny cx cy p hnb hne1 hne2
      unfold findPathsContrib at hseq
      rw [hcell] at hseq
      dsimp only at hseq
      rw [if_neg (by simp [hcb]), if_neg (by simp [hnb]), hhop] at hseq
      dsimp only at hseq
      by_cases hpr : p.kingB = false ∧ shouldPromote p.color ny = true
      · simp only [if_pos hpr] at hseq
        rw [List.mem_singleton] at hseq
        subst hseq
        refine ⟨by simp [Nat.add_mod, hlen], by simp, fun i h1 h2 => ?_⟩
        have h4 : (4 : Nat) ≤ 4 * i + 1 := by omega
        rw [show ([nx, ny, cx, cy] ++ path : List Int).getD (4 * i + 1) 0 =
            path.getD (4 * i + 1 - 4) 0 from List.getD_append_right _ _ _ _ (by simp; omega)]
        have : 4 * i + 1 - 4 = 4 * (i - 1) + 1 := by omega
        rw [this]
        apply hpath
        simp at h2
        omega
      · simp only [if_neg hpr] at hseq
        refine ih _ nx ny p _ c hhop hcol hking (by simp [Nat.add_mod, hlen])
          (fun i h2 => ?_) seq hseq
        rcases Nat.eq_zero_or_pos i with rfl | hi
        · simp only [Nat.mul_zero, Nat.zero_add]
          have : ([nx, ny, cx, cy] ++ path : List Int).getD 1 0 = ny := by simp
          rw [this]
          rw [hcol] at hpr
          have := fun hh => hpr ⟨hking, hh⟩
          rcases Bool.eq_false_or_eq_true (shouldPromote (some c) ny) with ht | hf
          · exact absurd ht this
          · exact hf
        · have h4 : (4 : Nat) ≤ 4 * i + 1 := by omega
          rw [show ([nx, ny, cx, cy] ++ path : List Int).getD (4 * i + 1) 0 =
              path.getD (4 * i + 1 - 4) 0 from List.getD_append_right _ _ _ _ (by simp; omega)]
          have heq : 4 * i + 1 - 4 = 4 * (i - 1) + 1 := by omega
          rw [heq]
          apply hpath
          simp at h2
          omega

end ChessRules

namespace ChessGame

open Checkers

/-- Embeds the `selectedPiece` / `multiJumpPiece` objects of `ChessGame`
(`{ x, y, piece }`). -/
structure SelPiece where
  x : Int
  y : Int
  piece : PieceJS
deriving DecidableEq, Repr

/-- Embeds `ChessGame.gameState`
(`'active' | 'red_win' | 'yellow_win' | 'draw'`). -/
inductive GState where
  | active
  | red_win
  | yellow_win
  | draw
deriving DecidableEq, Repr

/-- Embeds the elements of `capturedPieceInfo` (`{ piece, x, y }`). -/
structure CapturedInfo where
  piece : PieceJS
  x : Int
  y : Int
deriving DecidableEq, Repr

/-- Embeds the `moveInfo` record pushed to `moveHistory`
(chess.js lines 267–274). -/
structure MoveInfo where
  fromSq : List Int
  toSq : List Int
  piece : PieceJS
  isJump : Bool
  promoted : Bool
  captured : List CapturedInfo
deriving DecidableEq, Repr

/-- Embeds one entry of `moveHistory` (chess.js lines 262–275). -/
structure HistEntry where
  boardBefore : Board
  playerBefore : Color
  capturedBefore : List PieceJS × List PieceJS
  multiJumpBefore : Option SelPiece
  moveInfo : MoveInfo
deriving DecidableEq, Repr

/-- Embeds the state of a `ChessGame` instance (chess.js lines 3–21).
`capturedPieces` is the pair of the `red` and `yellow` lists. -/
structure GameState where
  board : Board
  currentPlayer : Color
  capturedPieces : List PieceJS × List PieceJS
  gameState : GState
  moveHistory : List HistEntry
  selectedPiece : Option SelPiece
  validMoves : List (List Int)
  multiJumpPiece : Option SelPiece
  mustJump : Bool
  canOnlySelectJumpingPieces : Bool
deriving Repr

/-- Embeds `ChessGame.checkMandatoryJumps` (chess.js lines 43–68) as a state
update (the JavaScript method mutates `this` and returns the flag). -/
def checkMandatoryJumps (g : GameState) : GameState :=
  let mj := ChessRules.hasMandatoryJumps (some g.board) (some g.currentPlayer)
  let g1 := { g with mustJump := mj, canOnlySelectJumpingPieces := mj }
  if mj = false then { g1 with multiJumpPiece := none } else g1

/-- Embeds `ChessGame.updateGameState` (chess.js lines 319–344). -/
def updateGameState (g : GameState) : GameState :=
  let g1 :=
    match ChessRules.checkWinner (some g.board) with
    | some ChessRules.Winner.red => { g with gameState := GState.red_win }
    | some ChessRules.Winner.yellow => { g with gameState := GState.yellow_win }
    | some ChessRules.Winner.draw => { g with gameState := GState.draw }
    | none => { g with gameState := GState.active }
  if g1.gameState = GState.active then checkMandatoryJumps g1 else g1

/-- Tail of `ChessGame.movePiece` after the capture handling
(chess.js lines 249–315): promotion, history push, multi-jump continuation
and end-of-turn processing.  `board2` is the board after the piece has been
moved and a capture (if any) removed; `capturedPieceInfo` and `capturedNow`
are the capture records produced by lines 217–247. -/
def movePieceFinish (g : GameState) (toX toY fromX fromY : Int) (originalPiece : PieceJS)
    (isJump : Bool) (capturedPieceInfo : List CapturedInfo)
    (capturedNow : List PieceJS × List PieceJS) (board2 : Board) : Bool × GameState :=
  let pieceAtDestination := getCell board2 toX toY
  let promoStep : Bool × Board :=
    match pieceAtDestination with
    | some pd =>
      if originalPiece.kingB = false ∧ ChessRules.shouldPromote pd.color toY = true then
        (true, setCell board2 toX toY (some { pd with isKing := some true }))
      else (false, board2)
    | none => (false, board2)
  let promoted := promoStep.1
  let board3 := promoStep.2
  let hist := g.moveHistory ++
    [⟨g.board, g.currentPlayer, g.capturedPieces, g.multiJumpPiece,
      ⟨[fromX, fromY], [toX, toY], originalPiece, isJump, promoted, capturedPieceInfo⟩⟩]
  let pieceAtDest2 := getCell board3 toX toY
  match pieceAtDest2 with
  | some pd2 =>
    let furtherJumps :=
      if isJump ∧ promoted = false then
        ChessRules.findSingleJumps (some board3) [toX, toY] (some pd2)
      else []
    if isJump ∧ promoted = false ∧ furtherJumps ≠ [] then
      (true,
       { g with
          board := board3, capturedPieces := capturedNow, moveHistory := hist,
          selectedPiece := some ⟨toX, toY, pd2⟩,
          validMoves := furtherJumps,
          multiJumpPiece := some ⟨toX, toY, pd2⟩,
          mustJump := true, canOnlySelectJumpingPieces := true })
    else
      let g1 :=
        { g with
            board := board3, capturedPieces := capturedNow, moveHistory := hist,
            currentPlayer := g.currentPlayer.other,
            selectedPiece := none, validMoves := [], multiJumpPiece := none }
      (true, updateGameState (checkMandatoryJumps g1))
  | none =>
    let g1 :=
      { g with
          board := board3, capturedPieces := capturedNow, moveHistory := hist,
          currentPlayer := g.currentPlayer.other,
          selectedPiece := none, validMoves := [], multiJumpPiece := none }
    (true, updateGameState (checkMandatoryJumps g1))

/-- Embeds `ChessGame.movePiece` (chess.js lines 165–315), returning the
JavaScript method's boolean result together with the updated state.
The `capturedPieces[captured.color].push` statement assumes a well-formed
captured piece; a captured piece without a color is skipped here (in the
JavaScript it would throw). -/
def movePiece (toX toY : Int) (g : GameState) : Bool × GameState :=
  match g.selectedPiece with
  | none => (false, g)
  | some sel =>
    if g.gameState ≠ GState.active then (false, g)
    else
      let fromX := sel.x
      let fromY := sel.y
      let piece := sel.piece
      match g.validMoves.find? (fun move =>
          decide (2 ≤ move.length) && decide (move.getD 0 0 = toX) &&
            decide (move.getD 1 0 = toY)) with
      | none => (false, g)
      | some chosenMove =>
        -- state stored for undo (deep copies are value copies here)
        let boardBefore := g.board
        let capturedBefore := g.capturedPieces
        let playerBefore := g.currentPlayer
        let multiJumpBefore := g.multiJumpPiece
        -- execute the move
        let isJump := decide (chosenMove.length > 2)
        let originalPiece := piece
        let board1 := setCell (setCell g.board toX toY (some piece)) fromX fromY none
        -- capture handling
        let capCoords : Option (Int × Int) :=
          if isJump then
            if chosenMove.length = 4 then some (chosenMove.getD 2 0, chosenMove.getD 3 0)
            else if (toX - fromX) % 2 = 0 ∧ (toY - fromY) % 2 = 0 then
              some (fromX + (toX - fromX) / 2, fromY + (toY - fromY) / 2)
            else none
          else none
        let capStep : List CapturedInfo × (List PieceJS × List PieceJS) × Board :=
          match capCoords with
          | some (capX, capY) =>
            if ChessRules.isInBounds capX capY = true then
              match getCell board1 capX capY with
              | some captured =>
                ([⟨captured, capX, capY⟩],
                 (if captured.color = some Color.red then
                    (g.capturedPieces.1 ++ [captured], g.capturedPieces.2)
                  else if captured.color = some Color.yellow then
                    (g.capturedPieces.1, g.capturedPieces.2 ++ [captured])
                  else g.capturedPieces),
                 setCell board1 capX capY none)
              | none => ([], g.capturedPieces, board1)
            else ([], g.capturedPieces, board1)
          | none => ([], g.capturedPieces, board1)
        movePieceFinish g toX toY fromX fromY originalPiece isJump
          capStep.1 capStep.2.1 capStep.2.2

end ChessGame

namespace ChessGame

open Checkers

theorem checkMandatoryJumps_fields (g : GameState) :
    (checkMandatoryJumps g).board = g.board ∧
    (checkMandatoryJumps g).currentPlayer = g.currentPlayer ∧
    (checkMandatoryJumps g).selectedPiece = g.selectedPiece ∧
    (checkMandatoryJumps g).validMoves = g.validMoves ∧
    (g.multiJumpPiece = none → (checkMandatoryJumps g).multiJumpPiece = none) := by
  unfold checkMandatoryJumps
  dsimp only
  split <;> simp

theorem updateGameState_fields (g : GameState) :
    (updateGameState g).board = g.board ∧
    (updateGameState g).currentPlayer = g.currentPlayer ∧
    (updateGameState g).selectedPiece = g.selectedPiece ∧
    (updateGameState g).validMoves = g.validMoves ∧
    (g.multiJumpPiece = none → (updateGameState g).multiJumpPiece = none) := by
  unfold updateGameState
  rcases hw : ChessRules.checkWinner (some g.board) with _ | w
  · dsimp only
    rw [if_pos rfl]
    refine ⟨(checkMandatoryJumps_fields _).1, (checkMandatoryJumps_fields _).2.1,
      (checkMandatoryJumps_fields _).2.2.1, (checkMandatoryJumps_fields _).2.2.2.1, ?_⟩
    intro h
    exact (checkMandatoryJumps_fields _).2.2.2.2 (by simpa using h)
  · cases w <;> (dsimp only; rw [if_neg (by decide)]; simp)

end ChessGame

namespace Scratch
open Checkers ChessRules ChessGame

def b3s : Board := place (place (place emptyBoard 2 5 redMan) 3 4 yellowMan) 3 2 yellowMan
def g3 : GameState :=
  ⟨b3s, Color.red, ([], []), GState.active, [], some ⟨2, 5, redMan⟩, [[4,3,3,4]], none, true, true⟩
example : (movePiece 4 3 g3).1 = true ∧ (movePiece 4 3 g3).2.currentPlayer = Color.red ∧
    (movePiece 4 3 g3).2.validMoves = [[2,1,3,2]] := by decide
end Scratch

namespace ChessGame

open Checkers ChessRules

theorem endTurn_board (g1 : GameState) :
    (updateGameState (checkMandatoryJumps g1)).board = g1.board :=
  (updateGameState_fields (checkMandatoryJumps g1)).1.trans (checkMandatoryJumps_fields g1).1

theorem endTurn_player (g1 : GameState) :
    (updateGameState (checkMandatoryJumps g1)).currentPlayer = g1.currentPlayer :=
  (updateGameState_fields (checkMandatoryJumps g1)).2.1.trans
    (checkMandatoryJumps_fields g1).2.1

theorem endTurn_selected (g1 : GameState) :
    (updateGameState (checkMandatoryJumps g1)).selectedPiece = g1.selectedPiece :=
  (updateGameState_fields (checkMandatoryJumps g1)).2.2.1.trans
    (checkMandatoryJumps_fields g1).2.2.1

theorem endTurn_multiJump (g1 : GameState) (h : g1.multiJumpPiece = none) :
    (updateGameState (checkMandatoryJumps g1)).multiJumpPiece = none :=
  (updateGameState_fields (checkMandatoryJumps g1)).2.2.2.2
    ((checkMandatoryJumps_fields g1).2.2.2.2 h)

theorem movePieceFinish_spec (g : GameState) (toX toY fromX fromY : Int)
    (piece : PieceJS) (capturedPieceInfo : List CapturedInfo)
    (capturedNow : List PieceJS × List PieceJS) (board2 : Board)
    (hWF2 : WF8 board2) (htb : isInBounds toX toY = true)
    (hb2 : getCell board2 toX toY = some piece) :
    (movePieceFinish g toX toY fromX fromY piece true capturedPieceInfo capturedNow board2).1
      = true ∧
    (let g' :=
      (movePieceFinish g toX toY fromX fromY piece true capturedPieceInfo capturedNow board2).2
     (¬ (piece.kingB = false ∧ shouldPromote piece.color toY = true) →
        g'.board = board2 ∧
        ((findSingleJumps (some board2) [toX, toY] (some piece) ≠ [] →
           g'.currentPlayer = g.currentPlayer ∧
           g'.validMoves = findSingleJumps (some board2) [toX, toY] (some piece) ∧
           g'.multiJumpPiece = some ⟨toX, toY, piece⟩ ∧
           g'.mustJump = true ∧ g'.selectedPiece = some ⟨toX, toY, piece⟩) ∧
         (findSingleJumps (some board2) [toX, toY] (some piece) = [] →
           g'.currentPlayer = Color.other g.currentPlayer ∧
           g'.multiJumpPiece = none ∧ g'.selectedPiece = none))) ∧
     ((piece.kingB = false ∧ shouldPromote piece.color toY = true) →
        getCell g'.board toX toY = some ⟨piece.color, some true⟩ ∧
        g'.currentPlayer = Color.other g.currentPlayer ∧
        g'.multiJumpPiece = none ∧ g'.selectedPiece = none)) := by
  unfold movePieceFinish
  rw [hb2]
  dsimp only
  by_cases hpr : piece.kingB = false ∧ shouldPromote piece.color toY = true
  · rw [if_pos hpr]
    dsimp only
    have hking : getCell (setCell board2 toX toY (some { piece with isKing := some true }))
        toX toY = some { piece with isKing := some true } :=
      getCell_setCell_self hWF2 htb _
    rw [hking]
    dsimp only
    rw [if_neg (by simp)]
    dsimp only
    refine ⟨rfl, fun hnp => absurd hpr hnp, fun _ => ?_⟩
    refine ⟨?_, ?_, ?_, ?_⟩
    · rw [endTurn_board]
      exact hking
    · rw [endTurn_player]
    · exact endTurn_multiJump _ rfl
    · rw [endTurn_selected]
  · rw [if_neg hpr]
    dsimp only
    rw [hb2]
    dsimp only
    by_cases hfj : findSingleJumps (some board2) [toX, toY] (some piece) = []
    · rw [if_neg (by simp [hfj])]
      dsimp only
      refine ⟨rfl, fun _ => ?_, fun hp => absurd hp hpr⟩
      refine ⟨?_, ⟨fun hne => absurd hfj hne, fun _ => ⟨?_, ?_, ?_⟩⟩⟩
      · rw [endTurn_board]
      · rw [endTurn_player]
      · exact endTurn_multiJump _ rfl
      · rw [endTurn_selected]
    · rw [if_pos ⟨rfl, rfl, by simpa using hfj⟩]
      refine ⟨rfl, fun _ => ?_, fun hp => absurd hp hpr⟩
      exact ⟨rfl, ⟨fun _ => ⟨rfl, by simp, rfl, rfl, rfl⟩, fun h => absurd h hfj⟩⟩

theorem movePiece_jump_spec (g : GameState) (toX toY capX capY : Int) (sel : SelPiece)
    (hact : g.gameState = GState.active)
    (hsel : g.selectedPiece = some sel)
    (hfind : g.validMoves.find? (fun move =>
        decide (2 ≤ move.length) && decide (move.getD 0 0 = toX) &&
          decide (move.getD 1 0 = toY)) = some [toX, toY, capX, capY])
    (hWF : WF8 g.board)
    (htb : isInBounds toX toY = true)
    (hne1 : ¬ (toX = sel.x ∧ toY = sel.y))
    (hne2 : ¬ (toX = capX ∧ toY = capY)) :
    (movePiece toX toY g).1 = true ∧
    (let gm := (movePiece toX toY g).2
     (¬ (sel.piece.kingB = false ∧ shouldPromote sel.piece.color toY = true) →
        getCell gm.board toX toY = some sel.piece ∧
        ((findSingleJumps (some gm.board) [toX, toY] (some sel.piece) ≠ [] →
           gm.currentPlayer = g.currentPlayer ∧
           gm.validMoves = findSingleJumps (some gm.board) [toX, toY] (some sel.piece) ∧
           gm.multiJumpPiece = some ⟨toX, toY, sel.piece⟩ ∧
           gm.mustJump = true ∧ gm.selectedPiece = some ⟨toX, toY, sel.piece⟩) ∧
         (findSingleJumps (some gm.board) [toX, toY] (some sel.piece) = [] →
           gm.currentPlayer = Color.other g.currentPlayer ∧ gm.multiJumpPiece = none ∧
           gm.selectedPiece = none))) ∧
     ((sel.piece.kingB = false ∧ shouldPromote sel.piece.color toY = true) →
        getCell gm.board toX toY = some ⟨sel.piece.color, some true⟩ ∧
        gm.currentPlayer = Color.other g.currentPlayer ∧
        gm.multiJumpPiece = none ∧ gm.selectedPiece = none)) := by
  have h0 := (isInBounds_iff toX toY).mp htb
  have hb1to : getCell (setCell (setCell g.board toX toY (some sel.piece)) sel.x sel.y none)
      toX toY = some sel.piece := by
    rw [getCell_setCell_ne2 _ _ hne1 h0.1 h0.2.2.1]
    exact getCell_setCell_self hWF htb _
  have hWF1 : WF8 (setCell (setCell g.board toX toY (some sel.piece)) sel.x sel.y none) :=
    WF8_setCell (WF8_setCell hWF _ _ _) _ _ _
  unfold movePiece
  rw [hsel]
  dsimp only
  rw [if_neg (by simp [hact]), hfind]
  dsimp only
  simp only [List.length_cons, List.length_nil, List.getD_cons_succ, List.getD_cons_zero,
    Nat.reduceAdd, gt_iff_lt, Nat.reduceLT, decide_True, eq_self_iff_true, if_true]
  rcases hcb : isInBounds capX capY with _ | _
  case false =>
    rw [if_neg (by simp [hcb])]
    dsimp only
    obtain ⟨hres, hnp, hp⟩ :=
      movePieceFinish_spec g toX toY sel.x sel.y sel.piece [] g.capturedPieces _ hWF1 htb hb1to
    refine ⟨hres, ?_, hp⟩
    intro hnpr
    obtain ⟨hbd, hcont, hstop⟩ := hnp hnpr
    rw [hbd]
    exact ⟨hb1to, hcont, hstop⟩
  case true =>
    rw [if_pos rfl]
    rcases hocc : getCell (setCell (setCell g.board toX toY (some sel.piece)) sel.x sel.y none)
        capX capY with _ | captured
    · dsimp only
      obtain ⟨hres, hnp, hp⟩ :=
        movePieceFinish_spec g toX toY sel.x sel.y sel.piece [] g.capturedPieces _ hWF1 htb hb1to
      refine ⟨hres, ?_, hp⟩
      intro hnpr
      obtain ⟨hbd, hcont, hstop⟩ := hnp hnpr
      rw [hbd]
      exact ⟨hb1to, hcont, hstop⟩
    · dsimp only
      have hb2to : getCell (setCell (setCell (setCell g.board toX toY (some sel.piece))
          sel.x sel.y none) capX capY none) toX toY = some sel.piece := by
        rw [getCell_setCell_ne2 _ _ hne2 h0.1 h0.2.2.1]
        exact hb1to
      have hWF2 : WF8 (setCell (setCell (setCell g.board toX toY (some sel.piece))
          sel.x sel.y none) capX capY none) := WF8_setCell hWF1 _ _ _
      obtain ⟨hres, hnp, hp⟩ :=
        movePieceFinish_spec g toX toY sel.x sel.y sel.piece _ _ _ hWF2 htb hb2to
      refine ⟨hres, ?_, hp⟩
      intro hnpr
      obtain ⟨hbd, hcont, hstop⟩ := hnp hnpr
      rw [hbd]
      exact ⟨hb2to, hcont, hstop⟩

end ChessGame

namespace ChessGame

open Checkers ChessRules

/-- Board of the promotion-ends-chain scenario: a red man at (1,2) about to
jump (2,1) and land on the promotion row at (3,0), with a further yellow
man at (4,1) that would otherwise offer a continuation jump (test
fixture). -/
def bPromo : Board := place (place (place emptyBoard 1 2 redMan) 2 1 yellowMan) 4 1 yellowMan

/-- Game state of the promotion-ends-chain scenario with the red man
selected (test fixture). -/
def gPromo : GameState :=
  ⟨bPromo, Color.red, ([], []), GState.active, [], some ⟨1, 2, redMan⟩, [[3, 0, 2, 1]],
    none, true, true⟩

/-- C3: a jump chain ends at promotion.  First conjunct (`findPaths`,
rules.js lines 179–195): in every jump sequence produced for a man of color
`c`, no hop except the final one lands on the promotion row — when a hop
lands a man on its promotion row, `findPaths` records the path instead of
recursing, even if further jumps would exist.  Second conjunct
(`movePiece`, chess.js lines 249–312): when an executed jump promotes the
moved man, the landing piece is a king, the multi-jump state is cleared and
the turn passes to the opponent. -/
theorem promotion_ends_jump_chain :
    (∀ (fuel : Nat) (b : Board) (x y : Int) (p : PieceJS) (c : Color),
       getCell b x y = some p → p.color = some c → p.kingB = false →
       ∀ seq ∈ findPaths b x y p [] fuel,
         ∀ i : Nat, 1 ≤ i → 4 * i + 1 < seq.length →
           shouldPromote (some c) (seq.getD (4 * i + 1) 0) = false) ∧
    (∀ (g : GameState) (toX toY capX capY : Int) (sel : SelPiece),
       g.gameState = GState.active → g.selectedPiece = some sel →
       g.validMoves.find? (fun move =>
           decide (2 ≤ move.length) && decide (move.getD 0 0 = toX) &&
             decide (move.getD 1 0 = toY)) = some [toX, toY, capX, capY] →
       WF8 g.board → isInBounds toX toY = true →
       ¬ (toX = sel.x ∧ toY = sel.y) → ¬ (toX = capX ∧ toY = capY) →
       sel.piece.kingB = false → shouldPromote sel.piece.color toY = true →
       getCell (movePiece toX toY g).2.board toX toY = some ⟨sel.piece.color, some true⟩ ∧
       (movePiece toX toY g).2.currentPlayer = Color.other g.currentPlayer ∧
       (movePiece toX toY g).2.multiJumpPiece = none ∧
       (movePiece toX toY g).2.selectedPiece = none) := by
  constructor
  · intro fuel b x y p c hcell hcol hking seq hseq i h1 h2
    exact (findPaths_promo_blocks fuel b x y p [] c hcell hcol hking (by simp)
      (by intro i hi; simp at hi) seq hseq).2.2 i h1 h2
  · intro g toX toY capX capY sel hact hsel hfind hWF htb hne1 hne2 hk hp
    exact (movePiece_jump_spec g toX toY capX capY sel hact hsel hfind hWF htb hne1 hne2).2.2
      ⟨hk, hp⟩

/-- Witness for `promotion_ends_jump_chain` at the promotion scenario:
the red man jumps from (1,2) to (3,0), promotes, and the turn passes even
though the new king could jump the yellow man at (4,1). -/
theorem promotion_ends_jump_chain_witness :
    getCell (movePiece 3 0 gPromo).2.board 3 0 =
        some ⟨redMan.color, some true⟩ ∧
      (movePiece 3 0 gPromo).2.currentPlayer = Color.other Color.red ∧
      (movePiece 3 0 gPromo).2.multiJumpPiece = none ∧
      (movePiece 3 0 gPromo).2.selectedPiece = none :=
  promotion_ends_jump_chain.2 gPromo 3 0 2 1 ⟨1, 2, redMan⟩ rfl rfl (by decide)
    (by decide) (by decide) (by decide) (by decide) (by decide) (by decide)

end ChessGame

namespace ChessRules

open Checkers

theorem filter_length_set {α : Type} (p : α → Bool) :
    ∀ (l : List α) (i : Nat) (a c : α), l.get? i = some c →
      ((l.set i a).filter p).length + (if p c then 1 else 0) =
        (l.filter p).length + (if p a then 1 else 0) := by
  intro l
  induction l with
  | nil => intro i a c h; simp at h
  | cons x t ih =>
    intro i a c h
    cases i with
    | zero =>
      simp only [List.get?] at h
      injection h with h
      subst h
      simp only [List.set]
      by_cases hpa : p a = true <;> by_cases hpx : p x = true <;>
        simp [List.filter_cons, hpa, hpx]
    | succ n =>
      simp only [List.get?] at h
      simp only [List.set]
      have hih := ih n a c h
      by_cases hpx : p x = true <;> simp [List.filter_cons, hpx] <;> omega

theorem sum_map_set {α : Type} (f : α → Nat) :
    ∀ (l : List α) (i : Nat) (a c : α), l.get? i = some c →
      ((l.set i a).map f).sum + f c = (l.map f).sum + f a := by
  intro l
  induction l with
  | nil => intro i a c h; simp at h
  | cons x t ih =>
    intro i a c h
    cases i with
    | zero =>
      simp only [List.get?] at h
      injection h with h
      subst h
      simp only [List.set, List.map_cons, List.sum_cons]
      omega
    | succ n =>
      simp only [List.get?] at h
      simp only [List.set, List.map_cons, List.sum_cons]
      have := ih n a c h
      omega

theorem piecesCount_setCell {b : Board} (hWF : WF8 b) {x y : Int}
    (hib : isInBounds x y = true) (v : Cell) :
    piecesCount (setCell b x y v) + (if (getCell b x y).isSome then 1 else 0) =
      piecesCount b + (if v.isSome then 1 else 0) := by
  have h0 := (isInBounds_iff x y).mp hib
  have h81 := hWF.1
  have hylt : y.toNat < b.length := by omega
  rcases hrow : b.get? y.toNat with _ | row
  · rw [List.get?_eq_none] at hrow; omega
  · have hrlen : row.length = 8 := hWF.2 row (List.get?_mem hrow)
    have hxlt : x.toNat < row.length := by omega
    rcases hcellr : row.get? x.toNat with _ | c
    · rw [List.get?_eq_none] at hcellr; omega
    · have hget : getCell b x y = c := by
        unfold getCell
        rw [if_pos ⟨h0.1, h0.2.2.1⟩, hrow]
        dsimp only
        rw [hcellr]
        rfl
      unfold setCell
      rw [if_pos ⟨h0.1, h0.2.2.1⟩, hrow]
      dsimp only
      unfold piecesCount
      rw [hget]
      have hL2 := sum_map_set (fun row => (row.filter Option.isSome).length)
        b y.toNat (row.set x.toNat v) row hrow
      have hL1 := filter_length_set Option.isSome row x.toNat v c hcellr
      dsimp only at hL2 ⊢
      omega

theorem piecesCount_copyBoard_le (b : Board) : piecesCount (copyBoard b) ≤ 64 := by
  unfold piecesCount copyBoard
  rw [List.map_map]
  have h : ∀ yy ∈ List.range 8,
      ((fun row => (List.filter Option.isSome row).length) ∘ fun y =>
        (List.range 8).map (fun x => getCell b (Int.ofNat x) (Int.ofNat y))) yy ≤ 8 := by
    intro yy _
    simp only [Function.comp]
    calc (List.filter Option.isSome
          ((List.range 8).map (fun x => getCell b (Int.ofNat x) (Int.ofNat yy)))).length
        ≤ ((List.range 8).map (fun x => getCell b (Int.ofNat x) (Int.ofNat yy))).length :=
          List.length_filter_le _ _
      _ = 8 := by simp
  calc ((List.range 8).map _).sum ≤ ((List.range 8).map (fun _ => 8)).sum :=
        List.sum_le_sum h
    _ = 64 := by simp

theorem piecesCount_pos {b : Board} {x y : Int} {p : PieceJS}
    (h : getCell b x y = some p) : 1 ≤ piecesCount b := by
  obtain ⟨h1, h2⟩ := getCell_nonneg h
  unfold getCell at h
  rw [if_pos ⟨h1, h2⟩] at h
  rcases hrow : b.get? y.toNat with _ | row
  · rw [hrow] at h; exact absurd h (by simp)
  · rw [hrow] at h
    dsimp only at h
    rcases hc : row.get? x.toNat with _ | cell
    · rw [hc] at h; exact absurd h (by simp)
    · rw [hc] at h
      simp only [Option.getD_some] at h
      subst h
      have hmem : (some p : Cell) ∈ row := List.get?_mem hc
      have hrowpos : 1 ≤ (row.filter Option.isSome).length := by
        have : (some p : Cell) ∈ row.filter Option.isSome :=
          List.mem_filter.mpr ⟨hmem, by simp⟩
        exact List.length_pos.mpr (fun hh => by simp [hh] at this)
      unfold piecesCount
      have : (row.filter Option.isSome).length ≤
          (b.map (fun row => (row.filter Option.isSome).length)).sum :=
        List.single_le_sum (fun _ _ => Nat.zero_le _) _
          (List.mem_map.mpr ⟨row, List.get?_mem hrow, rfl⟩)
      omega

theorem copyBoard_eq_self {b : Board} (hWF : WF8 b) : copyBoard b = b := by
  have h81 := hWF.1
  apply List.ext_get?
  intro n
  by_cases hn : n < 8
  · have hb : n < b.length := by omega
    rcases hrow : b.get? n with _ | row
    · rw [List.get?_eq_none] at hrow; omega
    · have hrlen : row.length = 8 := hWF.2 row (List.get?_mem hrow)
      unfold copyBoard
      rw [List.get?_map, List.get?_range hn]
      simp only [Option.map_some']
      congr 1
      apply List.ext_get?
      intro m
      by_cases hm : m < 8
      · rw [List.get?_map, List.get?_range hm]
        simp only [Option.map_some']
        rw [Int.ofNat_eq_natCast, Int.ofNat_eq_natCast, getCell_natCast, hrow]
        simp only [Option.getD_some]
        rcases hcm : row.get? m with _ | c
        · rw [List.get?_eq_none] at hcm; omega
        · simp
      · rw [List.get?_eq_none.mpr (by simpa using Nat.le_of_not_lt hm)]
        rw [List.get?_eq_none.mpr (by omega)]
  · rw [List.get?_eq_none.mpr (by simp [copyBoard]; omega)]
    rw [List.get?_eq_none.mpr (by omega)]
end ChessRules
namespace ChessRules

open Checkers

theorem WF8_hopBoard (b : Board) (x y nx ny cx cy : Int) (ptm : PieceJS) :
    WF8 (hopBoard b x y nx ny cx cy ptm) := by
  unfold hopBoard
  dsimp only
  split
  · exact WF8_setCell (WF8_setCell (WF8_setCell (WF8_copyBoard b) _ _ _) _ _ _) _ _ _
  · exact WF8_setCell (WF8_setCell (WF8_copyBoard b) _ _ _) _ _ _

theorem isInBounds_of_getCell {b : Board} (hWF : WF8 b) {x y : Int} {p : PieceJS}
    (h : getCell b x y = some p) : isInBounds x y = true := by
  obtain ⟨hx, hy⟩ := getCell_nonneg h
  have h81 := hWF.1
  suffices hs : x.toNat < 8 ∧ y.toNat < 8 by
    rw [isInBounds_iff]
    omega
  unfold getCell at h
  rw [if_pos ⟨hx, hy⟩] at h
  by_cases hyl : y.toNat < b.length
  · rcases hrow : b.get? y.toNat with _ | row
    · rw [List.get?_eq_none] at hrow; omega
    · rw [hrow] at h
      dsimp only at h
      have hrlen := hWF.2 row (List.get?_mem hrow)
      by_cases hxl : x.toNat < row.length
      · exact ⟨by omega, by omega⟩
      · rw [List.get?_eq_none.mpr (by omega)] at h
        simp at h
  · rw [List.get?_eq_none.mpr (by omega)] at h
    simp at h

theorem manJumpDir_shape {b : Board} {opp : Color} {x y dx dy : Int} {m : List Int}
    (hm : m ∈ manJumpDir b opp x y dx dy) :
    m = [x + dx * 2, y + dy * 2, x + dx, y + dy] := by
  unfold manJumpDir at hm
  dsimp only at hm
  split at hm
  case isTrue hb =>
    split at hm
    case h_1 q heq1 heq2 =>
      split at hm
      case isTrue hq =>
        rw [List.mem_singleton] at hm
        exact hm
      case isFalse => simp at hm
    case h_2 => simp at hm
  case isFalse => simp at hm

theorem findSingleJumps_cap_ne {b : Board} {x y : Int} {p : PieceJS} {nx ny cx cy : Int}
    (hm : [nx, ny, cx, cy] ∈ findSingleJumps (some b) [x, y] (some p)) : cx ≠ x := by
  rw [show findSingleJumps (some b) [x, y] (some p) =
      (if p.color = none ∨ p.isKing = none then []
       else
        all_capture.foldl (fun jumps d =>
          jumps ++
            (if p.kingB then
              kingJumpRay b (if p.color = some Color.red then Color.yellow else Color.red)
                x y d.1 d.2 7 1 false (-1) (-1)
             else manJumpDir b (if p.color = some Color.red then Color.yellow else Color.red)
                x y d.1 d.2)) []) from rfl] at hm
  split at hm
  · simp at hm
  · rw [foldl_append_eq_flatMap] at hm
    simp only [List.nil_append, List.mem_flatMap] at hm
    obtain ⟨d, hd, hm⟩ := hm
    have hd1 : d.1 = 1 ∨ d.1 = -1 := by
      simp only [all_capture, List.mem_cons, List.not_mem_nil, or_false] at hd
      rcases hd with rfl | rfl | rfl | rfl <;> simp
    by_cases hk : p.kingB = true
    · rw [if_pos hk] at hm
      rw [kingJumpRay_scan_mem] at hm
      obtain ⟨j, k, h1, h2, h3, hpre, hjb, hq, hpost, heq⟩ := hm
      simp only [List.cons.injEq, and_true] at heq
      obtain ⟨hnx, hny, hcx, hcy⟩ := heq
      rcases hd1 with he | he <;> rw [he] at hcx <;> intro hc <;> omega
    · rw [Bool.not_eq_true] at hk
      rw [if_neg (by simp [hk])] at hm
      have hsh := manJumpDir_shape hm
      simp only [List.cons.injEq, and_true] at hsh
      obtain ⟨hnx, hny, hcx, hcy⟩ := hsh
      rcases hd1 with he | he <;> rw [he] at hcx <;> intro hc <;> omega

theorem findSingleJumps_sound4 {b : Board} {x y : Int} {p : PieceJS} {nx ny cx cy : Int}
    (hj : [nx, ny, cx, cy] ∈ findSingleJumps (some b) [x, y] (some p)) :
    isInBounds nx ny = true ∧ isInBounds cx cy = true ∧ getCell b nx ny = none ∧
      (∃ q, getCell b cx cy = some q) ∧ cx ≠ x := by
  obtain ⟨nx', ny', cx', cy', heq, hnb, hcb, hland, q, hcap, hqc⟩ :=
    findSingleJumps_sound b x y p _ hj
  simp only [List.cons.injEq, and_true] at heq
  obtain ⟨h1, h2, h3, h4⟩ := heq
  subst h1; subst h2; subst h3; subst h4
  exact ⟨hnb, hcb, hland, ⟨q, hcap⟩, findSingleJumps_cap_ne hj⟩

theorem piecesCount_two {b : Board} (hWF : WF8 b) {x y cx cy : Int} {p q : PieceJS}
    (h1 : getCell b x y = some p) (h2 : getCell b cx cy = some q)
    (hne : ¬ (cx = x ∧ cy = y)) : 2 ≤ piecesCount b := by
  have hib := isInBounds_of_getCell hWF h1
  have hc := piecesCount_setCell hWF hib (none : Cell)
  rw [h1] at hc
  simp at hc
  have h0 := getCell_nonneg h2
  have h2' : getCell (setCell b x y none) cx cy = some q := by
    rw [getCell_setCell_ne2 _ _ hne h0.1 h0.2]
    exact h2
  have hpos := piecesCount_pos h2'
  omega

theorem piecesCount_hopBoard {b : Board} (hWF : WF8 b) {x y nx ny cx cy : Int}
    {ptm q : PieceJS}
    (horig : getCell b x y = some ptm)
    (hland : getCell b nx ny = none)
    (hcap : getCell b cx cy = some q)
    (hnb : isInBounds nx ny = true)
    (hcne : ¬ (cx = x ∧ cy = y)) :
    piecesCount (hopBoard b x y nx ny cx cy ptm) + 1 = piecesCount b := by
  have hcb0 : copyBoard b = b := copyBoard_eq_self hWF
  have hibo := isInBounds_of_getCell hWF horig
  have hibc := isInBounds_of_getCell hWF hcap
  have honn := getCell_nonneg horig
  have hcnn := getCell_nonneg hcap
  have hne1 : ¬ (x = nx ∧ y = ny) := by
    rintro ⟨rfl, rfl⟩; rw [horig] at hland; exact Option.noConfusion hland
  have hne2 : ¬ (cx = nx ∧ cy = ny) := by
    rintro ⟨rfl, rfl⟩; rw [hcap] at hland; exact Option.noConfusion hland
  have hW1 : WF8 (setCell b nx ny (some ptm)) := WF8_setCell hWF _ _ _
  have hW2 : WF8 (setCell (setCell b nx ny (some ptm)) x y none) := WF8_setCell hW1 _ _ _
  have c1 := piecesCount_setCell hWF hnb (some ptm)
  rw [hland] at c1
  simp at c1
  have horig1 : getCell (setCell b nx ny (some ptm)) x y = some ptm := by
    rw [getCell_setCell_ne2 _ _ hne1 honn.1 honn.2]
    exact horig
  have c2 := piecesCount_setCell hW1 hibo (none : Cell)
  rw [horig1] at c2
  simp at c2
  have hcap2 : getCell (setCell (setCell b nx ny (some ptm)) x y none) cx cy = some q := by
    rw [getCell_setCell_ne2 _ _ hcne hcnn.1 hcnn.2]
    rw [getCell_setCell_ne2 _ _ hne2 hcnn.1 hcnn.2]
    exact hcap
  have c3 := piecesCount_setCell hW2 hibc (none : Cell)
  rw [hcap2] at c3
  simp at c3
  unfold hopBoard
  dsimp only
  rw [hcb0, hcap2]
  rw [if_pos (by simp)]
  omega

theorem piecesCount_le_64 {b : Board} (hWF : WF8 b) : piecesCount b ≤ 64 := by
  have h := piecesCount_copyBoard_le b
  rwa [copyBoard_eq_self hWF] at h

/-- A maximal jump sequence from `(x, y)` with piece object `p` on board `b`,
exactly as explored by the recursion `findPaths` inside
`ChessRules.getJumpMoves` (rules.js lines 120–197): each hop is one of the
single jumps produced by `findSingleJumps`, executed on a fresh board copy
by `hopBoard`; the chain ends when no further single jump exists or when the
hop just made promoted the moved piece.  The sequence is the flat list of
hops in reverse chronological order (latest hop first), matching
`newPath = [nextX, nextY, capX, capY, ...pathSoFar]`, so the first hop of a
nonempty chain is its final four entries. -/
inductive MaxChain : Board → Int → Int → PieceJS → List Int → Prop where
  | stop {b : Board} {x y : Int} {p : PieceJS}
      (hnoj : findSingleJumps (some b) [x, y] (some p) = []) :
      MaxChain b x y p []
  | promote {b : Board} {x y : Int} {p : PieceJS} {nx ny cx cy : Int} {ptm : PieceJS}
      (hj : [nx, ny, cx, cy] ∈ findSingleJumps (some b) [x, y] (some p))
      (horig : getCell b x y = some ptm)
      (hman : ptm.kingB = false)
      (hprom : shouldPromote ptm.color ny = true) :
      MaxChain b x y p [nx, ny, cx, cy]
  | step {b : Board} {x y : Int} {p : PieceJS} {nx ny cx cy : Int} {ptm : PieceJS}
      {seq : List Int}
      (hj : [nx, ny, cx, cy] ∈ findSingleJumps (some b) [x, y] (some p))
      (horig : getCell b x y = some ptm)
      (hnoprom : ¬ (ptm.kingB = false ∧ shouldPromote ptm.color ny = true))
      (hrest : MaxChain (hopBoard b x y nx ny cx cy ptm) nx ny ptm seq) :
      MaxChain b x y p (seq ++ [nx, ny, cx, cy])

theorem MaxChain_length_mod4 {b : Board} {x y : Int} {p : PieceJS} {s : List Int}
    (h : MaxChain b x y p s) : s.length % 4 = 0 := by
  induction h with
  | stop hnoj => rfl
  | promote hj horig hman hprom => simp
  | step hj horig hnoprom hrest ih =>
    simp only [List.length_append, List.length_cons, List.length_nil]
    omega

theorem findPaths_sound :
    ∀ (fuel : Nat) (b : Board) (x y : Int) (p : PieceJS) (pathSoFar : List Int),
      ∀ seq ∈ findPaths b x y p pathSoFar fuel,
        ∃ s, MaxChain b x y p s ∧ seq = s ++ pathSoFar ∧ (s = [] → pathSoFar ≠ []) := by
  intro fuel
  induction fuel with
  | zero =>
    intro b x y p path seq hseq
    simp [findPaths] at hseq
  | succ n ih =>
    intro b x y p path seq hseq
    rw [findPaths_succ] at hseq
    split at hseq
    case isTrue hsj =>
      split at hseq
      case isTrue hp =>
        rw [List.mem_singleton] at hseq
        subst hseq
        refine ⟨[], MaxChain.stop hsj, rfl, ?_⟩
        intro _ hc
        subst hc
        simp at hp
      case isFalse => simp at hseq
    case isFalse hsj =>
      rw [List.mem_flatMap] at hseq
      obtain ⟨jump, hj, hseq⟩ := hseq
      obtain ⟨nx, ny, cx, cy, rfl, hnb, hcb, hland, q, hcap, hqc⟩ :=
        findSingleJumps_sound b x y p _ hj
      unfold findPathsContrib at hseq
      rcases horig : getCell b x y with _ | ptm
      · rw [horig] at hseq
        simp at hseq
      · rw [horig] at hseq
        dsimp only at hseq
        have hne1 : ¬ (nx = x ∧ ny = y) := by
          rintro ⟨rfl, rfl⟩; rw [horig] at hland; exact Option.noConfusion hland
        have hne2 : ¬ (nx = cx ∧ ny = cy) := by
          rintro ⟨rfl, rfl⟩; rw [hcap] at hland; exact Option.noConfusion hland
        have hhop := getCell_hopBoard_land b x y nx ny cx cy ptm hnb hne1 hne2
        rw [if_neg (by simp [hcb]), if_neg (by simp [hnb]), hhop] at hseq
        dsimp only at hseq
        by_cases hpr : ptm.kingB = false ∧ shouldPromote ptm.color ny = true
        · simp only [if_pos hpr] at hseq
          rw [List.mem_singleton] at hseq
          subst hseq
          refine ⟨[nx, ny, cx, cy], MaxChain.promote hj horig hpr.1 hpr.2, rfl, ?_⟩
          intro hc
          exact absurd hc (by simp)
        · simp only [if_neg hpr] at hseq
          obtain ⟨s, hs, rfl, _⟩ := ih _ nx ny ptm _ seq hseq
          refine ⟨s ++ [nx, ny, cx, cy], MaxChain.step hj horig hpr hs,
            (List.append_assoc s _ path).symm, ?_⟩
          intro hc
          exact absurd hc (by simp)

theorem findPaths_complete {b : Board} {x y : Int} {p : PieceJS} {s : List Int}
    (h : MaxChain b x y p s) :
    ∀ (fuel : Nat) (pathSoFar : List Int), (s = [] → pathSoFar ≠ []) →
      s.length + 4 ≤ 4 * fuel →
      s ++ pathSoFar ∈ findPaths b x y p pathSoFar fuel := by
  induction h with
  | @stop b x y p hnoj =>
    intro fuel path hne hf
    cases fuel with
    | zero => simp at hf
    | succ m =>
      rw [List.nil_append, findPaths_succ, if_pos hnoj,
        if_pos (List.length_pos.mpr (hne rfl))]
      exact List.mem_singleton.mpr rfl
  | @promote b x y p nx ny cx cy ptm hj horig hman hprom =>
    intro fuel path hne hf
    cases fuel with
    | zero => simp at hf
    | succ m =>
      rw [findPaths_succ, if_neg (List.ne_nil_of_mem hj), List.mem_flatMap]
      refine ⟨[nx, ny, cx, cy], hj, ?_⟩
      obtain ⟨hnb, hcb, hland, ⟨q, hcap⟩, hcne⟩ := findSingleJumps_sound4 hj
      have hne1 : ¬ (nx = x ∧ ny = y) := by
        rintro ⟨rfl, rfl⟩; rw [horig] at hland; exact Option.noConfusion hland
      have hne2 : ¬ (nx = cx ∧ ny = cy) := by
        rintro ⟨rfl, rfl⟩; rw [hcap] at hland; exact Option.noConfusion hland
      have hhop := getCell_hopBoard_land b x y nx ny cx cy ptm hnb hne1 hne2
      unfold findPathsContrib
      rw [horig]
      dsimp only
      rw [if_neg (by simp [hcb]), if_neg (by simp [hnb]), hhop]
      dsimp only
      rw [if_pos ⟨hman, hprom⟩]
      exact List.mem_singleton.mpr rfl
  | @step b x y p nx ny cx cy ptm seq hj horig hnoprom hrest ih =>
    intro fuel path hne hf
    cases fuel with
    | zero => simp at hf
    | succ m =>
      rw [findPaths_succ, if_neg (List.ne_nil_of_mem hj), List.mem_flatMap]
      refine ⟨[nx, ny, cx, cy], hj, ?_⟩
      obtain ⟨hnb, hcb, hland, ⟨q, hcap⟩, hcne⟩ := findSingleJumps_sound4 hj
      have hne1 : ¬ (nx = x ∧ ny = y) := by
        rintro ⟨rfl, rfl⟩; rw [horig] at hland; exact Option.noConfusion hland
      have hne2 : ¬ (nx = cx ∧ ny = cy) := by
        rintro ⟨rfl, rfl⟩; rw [hcap] at hland; exact Option.noConfusion hland
      have hhop := getCell_hopBoard_land b x y nx ny cx cy ptm hnb hne1 hne2
      unfold findPathsContrib
      rw [horig]
      dsimp only
      rw [if_neg (by simp [hcb]), if_neg (by simp [hnb]), hhop]
      dsimp only
      simp only [if_neg hnoprom]
      have hf' : seq.length + 4 ≤ 4 * m := by
        simp only [List.length_append, List.length_cons, List.length_nil] at hf
        omega
      have hih := ih m ([nx, ny, cx, cy] ++ path) (fun _ => by simp) hf'
      rw [List.append_assoc]
      exact hih

theorem MaxChain_length_le {b : Board} {x y : Int} {p : PieceJS} {s : List Int}
    (h : MaxChain b x y p s) :
    WF8 b → s ≠ [] → s.length + 4 ≤ 4 * piecesCount b := by
  induction h with
  | @stop b x y p hnoj =>
    intro _ hne
    exact absurd rfl hne
  | @promote b x y p nx ny cx cy ptm hj horig hman hprom =>
    intro hWF _
    obtain ⟨hnb, hcb, hland, ⟨q, hcap⟩, hcne⟩ := findSingleJumps_sound4 hj
    have h2 := piecesCount_two hWF horig hcap (fun hc => hcne hc.1)
    simp only [List.length_cons, List.length_nil]
    omega
  | @step b x y p nx ny cx cy ptm seq hj horig hnoprom hrest ih =>
    intro hWF _
    obtain ⟨hnb, hcb, hland, ⟨q, hcap⟩, hcne⟩ := findSingleJumps_sound4 hj
    have hcount := piecesCount_hopBoard hWF horig hland hcap hnb (fun hc => hcne hc.1)
    by_cases hseq : seq = []
    · subst hseq
      have h2 := piecesCount_two hWF horig hcap (fun hc => hcne hc.1)
      simp only [List.nil_append, List.length_cons, List.length_nil]
      omega
    · have hih := ih (WF8_hopBoard b x y nx ny cx cy ptm) hseq
      simp only [List.length_append, List.length_cons, List.length_nil]
      omega

theorem findPaths_maxChain_iff {b : Board} {x y : Int} {p : PieceJS} (hWF : WF8 b)
    (seq : List Int) :
    seq ∈ findPaths b x y p [] 64 ↔ MaxChain b x y p seq ∧ seq ≠ [] := by
  constructor
  · intro h
    obtain ⟨s, hs, heq, hnil⟩ := findPaths_sound 64 b x y p [] seq h
    rw [List.append_nil] at heq
    subst heq
    exact ⟨hs, fun hc => (hnil hc) rfl⟩
  · rintro ⟨hmc, hne⟩
    have hlen := MaxChain_length_le hmc hWF hne
    have h64 := piecesCount_le_64 hWF
    have hres := findPaths_complete hmc 64 [] (fun hc => absurd hc hne) (by omega)
    simpa using hres

theorem formatMoves_fold_mem (m : List Int) :
    ∀ (L acc : List (List Int)),
      (m ∈ L.foldl (fun formattedMoves path =>
          if path.length < 4 ∨ path.length % 4 ≠ 0 then formattedMoves
          else
            let firstStepMove := path.drop (path.length - 4)
            if formattedMoves.contains firstStepMove then formattedMoves
            else formattedMoves ++ [firstStepMove]) acc ↔
        m ∈ acc ∨ ∃ path ∈ L, ¬ (path.length < 4 ∨ path.length % 4 ≠ 0) ∧
          m = path.drop (path.length - 4)) := by
  intro L
  induction L with
  | nil =>
    intro acc
    simp
  | cons hd t ih =>
    intro acc
    rw [List.foldl_cons]
    rw [ih]
    dsimp only
    by_cases hbad : hd.length < 4 ∨ hd.length % 4 ≠ 0
    · rw [if_pos hbad]
      simp only [List.exists_mem_cons_iff]
      constructor
      · rintro (h | h)
        · exact Or.inl h
        · exact Or.inr (Or.inr h)
      · rintro (h | ⟨hok, _⟩ | h)
        · exact Or.inl h
        · exact absurd hbad hok
        · exact Or.inr h
    · rw [if_neg hbad]
      by_cases hc : acc.contains (hd.drop (hd.length - 4)) = true
      · rw [if_pos hc]
        have hmem : hd.drop (hd.length - 4) ∈ acc := by
          rw [← List.elem_iff]
          exact hc
        simp only [List.exists_mem_cons_iff]
        constructor
        · rintro (h | h)
          · exact Or.inl h
          · exact Or.inr (Or.inr h)
        · rintro (h | ⟨_, rfl⟩ | h)
          · exact Or.inl h
          · exact Or.inl hmem
          · exact Or.inr h
      · rw [if_neg hc]
        simp only [List.mem_append, List.mem_singleton, List.exists_mem_cons_iff]
        constructor
        · rintro ((h | h) | h)
          · exact Or.inl h
          · exact Or.inr (Or.inl ⟨hbad, h⟩)
          · exact Or.inr (Or.inr h)
        · rintro (h | ⟨_, h⟩ | h)
          · exact Or.inl (Or.inl h)
          · exact Or.inl (Or.inr h)
          · exact Or.inr h

theorem formatMoves_mem (L : List (List Int)) (m : List Int) :
    m ∈ formatMoves L ↔
      ∃ path ∈ L, ¬ (path.length < 4 ∨ path.length % 4 ≠ 0) ∧
        m = path.drop (path.length - 4) := by
  rw [show formatMoves L = L.foldl (fun formattedMoves path =>
      if path.length < 4 ∨ path.length % 4 ≠ 0 then formattedMoves
      else
        let firstStepMove := path.drop (path.length - 4)
        if formattedMoves.contains firstStepMove then formattedMoves
        else formattedMoves ++ [firstStepMove]) [] from rfl]
  rw [formatMoves_fold_mem m L []]
  simp

theorem formatMoves_fold_nodup :
    ∀ (L acc : List (List Int)), acc.Nodup →
      (L.foldl (fun formattedMoves path =>
          if path.length < 4 ∨ path.length % 4 ≠ 0 then formattedMoves
          else
            let firstStepMove := path.drop (path.length - 4)
            if formattedMoves.contains firstStepMove then formattedMoves
            else formattedMoves ++ [firstStepMove]) acc).Nodup := by
  intro L
  induction L with
  | nil =>
    intro acc h
    simpa using h
  | cons hd t ih =>
    intro acc h
    rw [List.foldl_cons]
    dsimp only
    by_cases hbad : hd.length < 4 ∨ hd.length % 4 ≠ 0
    · rw [if_pos hbad]
      exact ih acc h
    · rw [if_neg hbad]
      by_cases hc : acc.contains (hd.drop (hd.length - 4)) = true
      · rw [if_pos hc]
        exact ih acc h
      · rw [if_neg hc]
        refine ih _ ?_
        rw [List.nodup_append]
        refine ⟨h, List.nodup_singleton _, ?_⟩
        intro a ha hha
        rw [List.mem_singleton] at hha
        subst hha
        exact hc (by rw [List.elem_iff]; exact ha)

theorem formatMoves_nodup (L : List (List Int)) : (formatMoves L).Nodup :=
  formatMoves_fold_nodup L [] List.nodup_nil

/-- C9: `getJumpMoves` returns exactly the set of first hops of the maximal
jump sequences starting at the given position, each as a single
`[toX, toY, capX, capY]` entry.  A `MaxChain` sequence is flat and in
reverse hop order, so the first hop of a chain `hops` is its final
four entries `hops.drop (hops.length - 4)`.  A first hop shared by several
longer sequences appears only once (the returned list has no duplicates),
and every returned move is a single 4-entry hop, so later hops of a
sequence are never returned as entries of their own.  The board is assumed
to be 8×8 (`WF8`), which is what bounds the recursion depth of `findPaths`
by the piece count and lets fuel 64 cover every chain. -/
theorem getJumpMoves_first_hops_spec (b : Board) (x y : Int) (p : PieceJS)
    (hWF : WF8 b) :
    (∀ m, m ∈ getJumpMoves (some b) [x, y] (some p) ↔
        ∃ hops, MaxChain b x y p hops ∧ hops ≠ [] ∧
          m = hops.drop (hops.length - 4)) ∧
    (getJumpMoves (some b) [x, y] (some p)).Nodup ∧
    (∀ m ∈ getJumpMoves (some b) [x, y] (some p), m.length = 4) := by
  have hgj : getJumpMoves (some b) [x, y] (some p) =
      formatMoves (findPaths b x y p [] 64) := rfl
  refine ⟨?_, ?_, ?_⟩
  · intro m
    rw [hgj, formatMoves_mem]
    constructor
    · rintro ⟨path, hpath, hok, rfl⟩
      obtain ⟨hmc, hne⟩ := (findPaths_maxChain_iff hWF path).mp hpath
      exact ⟨path, hmc, hne, rfl⟩
    · rintro ⟨hops, hmc, hne, rfl⟩
      refine ⟨hops, (findPaths_maxChain_iff hWF hops).mpr ⟨hmc, hne⟩, ?_, rfl⟩
      have h4 := MaxChain_length_mod4 hmc
      have hpos : 0 < hops.length := List.length_pos.mpr hne
      omega
  · rw [hgj]
    exact formatMoves_nodup _
  · intro m hm
    rw [hgj, formatMoves_mem] at hm
    obtain ⟨path, _, hok, rfl⟩ := hm
    rw [List.length_drop]
    omega

/-- Witness for `getJumpMoves_first_hops_spec` at a concrete 8×8 board. -/
theorem getJumpMoves_first_hops_spec_witness :
    WF8 bMandJump ∧
    ((∀ m, m ∈ getJumpMoves (some bMandJump) [2, 5] (some redMan) ↔
        ∃ hops, MaxChain bMandJump 2 5 redMan hops ∧ hops ≠ [] ∧
          m = hops.drop (hops.length - 4)) ∧
    (getJumpMoves (some bMandJump) [2, 5] (some redMan)).Nodup ∧
    (∀ m ∈ getJumpMoves (some bMandJump) [2, 5] (some redMan), m.length = 4)) :=
  ⟨by decide, getJumpMoves_first_hops_spec bMandJump 2 5 redMan (by decide)⟩

end ChessRules
namespace ChessAI

open Checkers ChessRules

/-- A JavaScript number as used by the search: either `-Infinity`,
`+Infinity`, or a finite number (modelled as a rational). -/
inductive JNum where
  | ninf
  | pinf
  | num (q : ℚ)
deriving DecidableEq, Repr

/-- Strict `<` on JavaScript numbers (no NaN arises in the modelled flows). -/
def JNum.jlt : JNum → JNum → Bool
  | .ninf, .ninf => false
  | .ninf, .pinf => true
  | .ninf, .num _ => true
  | .num _, .ninf => false
  | .num a, .num b => decide (a < b)
  | .num _, .pinf => true
  | .pinf, _ => false

/-- Non-strict `≤` on JavaScript numbers. -/
def JNum.jle (a b : JNum) : Bool := !(JNum.jlt b a)

/-- `Math.max`. -/
def JNum.jmax (a b : JNum) : JNum := if JNum.jlt a b then b else a

/-- `Math.min`. -/
def JNum.jmin (a b : JNum) : JNum := if JNum.jlt b a then b else a

/-- Add a finite number to a JavaScript number (`alpha + 1`, `beta - 1`):
infinities absorb. -/
def JNum.addQ : JNum → ℚ → JNum
  | .ninf, _ => .ninf
  | .pinf, _ => .pinf
  | .num a, q => .num (a + q)

/-- The per-run environment of the AI: the Zobrist table (`zobristTable`,
filled with `Math.random` values at construction, chess-ai.js lines 123–132),
the turn key (`zobristTurn`, line 20), the static evaluator
(`evaluateBoard(board, 'yellow')` — abstracted as a function of the board
because its weights are fixed per difficulty and its only other input is the
`Math.random()` tie-break of chess-ai.js line 1019, sampled per call in a
run), and `MAX_QUIESCENCE_DEPTH`. -/
structure AIEnv where
  zt : Nat → Nat → Nat
  zturn : Nat
  ev : Board → ℚ
  maxQ : Nat

/-- Embeds `ChessAI.getPieceZobristIndex` (chess-ai.js lines 135–142) for a
present piece: 0/1 red man/king, 2/3 yellow man/king (a missing `color` is
treated as yellow by the strict comparison, a missing `isKing` as false). -/
def getPieceZobristIndex (p : PieceJS) : Nat :=
  if p.color = some Color.red then (if p.kingB then 1 else 0)
  else (if p.kingB then 3 else 2)

/-- Embeds `ChessAI.computeZobristHash` (chess-ai.js lines 144–159): XOR of
the table entries of all occupied squares, with the turn key XORed in when
yellow is to move. -/
def computeZobristHash (env : AIEnv) (b : Board) (colorToMove : Color) : Nat :=
  let h := (List.range 8).foldl (fun h y => (List.range 8).foldl (fun h x =>
    match getCell b (Int.ofNat x) (Int.ofNat y) with
    | some piece => Nat.xor h (env.zt (getPieceZobristIndex piece) (y * 8 + x))
    | none => h) h) 0
  if colorToMove = Color.yellow then Nat.xor h env.zturn else h

/-- A move object as built by `ChessAI.getAllPossibleMoves`
(chess-ai.js lines 731 and 754): `captureX`/`captureY` are present only on
jumps, `score` is the move-ordering heuristic. -/
structure MoveR where
  fromX : Int
  fromY : Int
  toX : Int
  toY : Int
  isJump : Bool
  captureX : Option Int
  captureY : Option Int
  score : JNum
deriving DecidableEq, Repr

/-- Embeds `ChessAI.scoreMoveHeuristic` (chess-ai.js lines 768–850):
jump bonus plus captured-piece value, promotion bonus, king centring bonus
and edge penalty, and a small advance bonus for men on quiet moves;
`-Infinity` when the source square is empty. -/
def scoreMoveHeuristic (b : Board) (move : MoveR) : JNum :=
  match getCell b move.fromX move.fromY with
  | none => JNum.ninf
  | some piece =>
    let score : ℚ := 0
    let score := if move.isJump then
        let s1 := score + 2000
        match move.captureX, move.captureY with
        | some capX, some capY =>
          if isInBounds capX capY then
            match getCell b capX capY with
            | some capturedPiece =>
              s1 + (if capturedPiece.kingB then (400 : ℚ) * 2 else (100 : ℚ) * 1.5)
            | none => s1
          else s1
        | _, _ => s1
      else score
    let score := if ¬ piece.kingB ∧ shouldPromote piece.color move.toY = true then
        score + (400 : ℚ) * 1.5
      else score
    let score := if piece.kingB then
        let centerDistBefore := abs ((move.fromX : ℚ) - 3.5) + abs ((move.fromY : ℚ) - 3.5)
        let centerDistAfter := abs ((move.toX : ℚ) - 3.5) + abs ((move.toY : ℚ) - 3.5)
        let s := score + (centerDistBefore - centerDistAfter) * 2
        if move.toX = 0 ∨ move.toX = 7 ∨ move.toY = 0 ∨ move.toY = 7 then s - 10 else s
      else score
    let score := if ¬ piece.kingB ∧ move.isJump = false then
        let forwardDir : Int := if piece.color = some Color.yellow then 1 else -1
        if (move.toY - move.fromY) * forwardDir > 0 then score + 5 else score
      else score
    JNum.num score

/-- Embeds `ChessAI.getAllPossibleMoves` (chess-ai.js lines 710–765):
first pass collects every jump of every piece of `color` (skipping jump
entries with fewer than four coordinates), and if `jumpsOnly` is set or any
jump exists only jumps are returned; otherwise a second pass collects the
regular moves (skipping raw moves that are not coordinate pairs). -/
def getAllPossibleMoves (b : Board) (color : Color) (jumpsOnly : Bool) : List MoveR :=
  let jumpMoves := (List.range 8).flatMap (fun y => (List.range 8).flatMap (fun x =>
    match getCell b (Int.ofNat x) (Int.ofNat y) with
    | some piece =>
      if piece.color = some color then
        (getJumpMoves (some b) [Int.ofNat x, Int.ofNat y] (some piece)).filterMap
          (fun jump =>
            match jump with
            | a :: b' :: c :: d :: _ =>
              let m : MoveR := ⟨Int.ofNat x, Int.ofNat y, a, b', true, some c, some d,
                JNum.num 0⟩
              some { m with score := scoreMoveHeuristic b m }
            | _ => none)
      else []
    | none => []))
  let hasJumps := (List.range 8).any (fun y => (List.range 8).any (fun x =>
    match getCell b (Int.ofNat x) (Int.ofNat y) with
    | some piece =>
      piece.color = some color ∧
        (getJumpMoves (some b) [Int.ofNat x, Int.ofNat y] (some piece)).length > 0
    | none => false))
  if jumpsOnly || hasJumps then jumpMoves.filter (·.isJump)
  else
    jumpMoves ++ (List.range 8).flatMap (fun y => (List.range 8).flatMap (fun x =>
      match getCell b (Int.ofNat x) (Int.ofNat y) with
      | some piece =>
        if piece.color = some color then
          (getRegularMoves (some b) [Int.ofNat x, Int.ofNat y] (some piece)).filterMap
            (fun moveRaw =>
              match moveRaw with
              | [a, b'] =>
                let m : MoveR := ⟨Int.ofNat x, Int.ofNat y, a, b', false, none, none,
                  JNum.num 0⟩
                some { m with score := scoreMoveHeuristic b m }
              | _ => none)
        else []
      | none => []))

/-- Stable insertion of a move into a list sorted by descending score. -/
def insertMoveDesc (m : MoveR) : List MoveR → List MoveR
  | [] => [m]
  | a :: t => if JNum.jlt a.score m.score then m :: a :: t else a :: insertMoveDesc m t

/-- Embeds `ChessAI.sortMoves` (chess-ai.js lines 853–856): stable sort by
descending heuristic score (every constructed move carries a score, so the
`?? -Infinity` default never fires). -/
def sortMoves : List MoveR → List MoveR
  | [] => []
  | a :: t => insertMoveDesc a (sortMoves t)

/-- Embeds `ChessAI.simulateMove` (chess-ai.js lines 859–915) at value level:
apply `move` to the board and XOR-update the hash (piece out of the source
square, captured piece out, piece — with its post-promotion index — into the
destination square).  The turn key is never XORed.  Returns the board and
hash unchanged when the source square is empty or missing.  Square indices
are clamped with `Int.toNat`; every move fed to it by the search has
in-bounds coordinates. -/
def simMove (env : AIEnv) (b : Board) (move : MoveR) (currentHash : Nat) : Board × Nat :=
  match getCell b move.fromX move.fromY with
  | none => (b, currentHash)
  | some piece =>
    let pieceIndex := getPieceZobristIndex piece
    let fromSqIndex := (move.fromY * 8 + move.fromX).toNat
    let toSqIndex := (move.toY * 8 + move.toX).toNat
    let hash := Nat.xor currentHash (env.zt pieceIndex fromSqIndex)
    let bh : Board × Nat :=
      if move.isJump then
        match move.captureX, move.captureY with
        | some capX, some capY =>
          if isInBounds capX capY then
            match getCell b capX capY with
            | some capturedPiece =>
              (setCell b capX capY none,
                Nat.xor hash
                  (env.zt (getPieceZobristIndex capturedPiece) ((capY * 8 + capX).toNat)))
            | none => (b, hash)
          else (b, hash)
        | _, _ => (b, hash)
      else (b, hash)
    let b2 := setCell (setCell bh.1 move.toX move.toY (some piece)) move.fromX move.fromY none
    let promoted := !piece.kingB && shouldPromote piece.color move.toY
    let pieceAfter : PieceJS := if promoted then { piece with isKing := some true } else piece
    let b3 := if promoted then setCell b2 move.toX move.toY (some pieceAfter) else b2
    let pieceIndexAfterMove := if promoted then getPieceZobristIndex pieceAfter else pieceIndex
    (b3, Nat.xor bh.2 (env.zt pieceIndexAfterMove toSqIndex))

/-- An entry of the transposition table
(`{ score, depth, type, bestMoveHash }`, chess-ai.js line 9). -/
structure TTEntry where
  score : JNum
  depth : Int
  ttype : Nat
  bestMoveHash : Option Nat
deriving DecidableEq, Repr

/-- The mutable state of the search: the heap of board objects (boards are
references into it, `copyBoard` allocates, `simulateMove` writes in place)
and the transposition table. -/
structure AISt where
  heap : List Board
  tt : List (Nat × TTEntry)
deriving Repr

/-- Dereference a board. -/
def heapGet (h : List Board) (r : Nat) : Board := (h.get? r).getD []

/-- `this.copyBoard(board)` (chess-ai.js lines 1102–1115): allocate a fresh
value copy and return its reference. -/
def copyBoardH (st : AISt) (r : Nat) : AISt × Nat :=
  ({ st with heap := st.heap ++ [copyBoard (heapGet st.heap r)] }, st.heap.length)

/-- `this.simulateMove(board, move, hash)` on a board reference: writes the
updated board back in place. -/
def simulateMoveH (env : AIEnv) (st : AISt) (r : Nat) (move : MoveR) (hash : Nat) :
    AISt × Nat :=
  let p := simMove env (heapGet st.heap r) move hash
  ({ st with heap := st.heap.set r p.1 }, p.2)

/-- The `copyBoard`-then-`simulateMove` sequence used by `searchMove`,
`minimax` (for the TT best-move hash), `quiescenceSearch` and
`findBestMoveAtDepth`: returns the new state, the reference of the fresh
copy, and the updated hash. -/
def copySimH (env : AIEnv) (st : AISt) (r : Nat) (move : MoveR) (hash : Nat) :
    AISt × Nat × Nat :=
  let c := copyBoardH st r
  let s := simulateMoveH env c.1 c.2 move hash
  (s.1, c.2, s.2)

/-- `Map.set` on the transposition table. -/
def ttSet (tt : List (Nat × TTEntry)) (h : Nat) (e : TTEntry) : List (Nat × TTEntry) :=
  (h, e) :: tt.filter (fun x => !(x.1 == h))

/-- Embeds `ChessAI.storeTranspositionEntry` (chess-ai.js lines 697–712):
classify the score against the original window and store, overwriting only
entries of smaller or equal depth. -/
def storeTranspositionEntry (st : AISt) (hash : Nat) (depth : Int) (score : JNum)
    (originalAlpha originalBeta : JNum) (bestMoveHash : Option Nat) : AISt :=
  let cacheType : Nat :=
    if score.jle originalAlpha then 2
    else if originalBeta.jle score then 1
    else 0
  match List.lookup hash st.tt with
  | none => { st with tt := ttSet st.tt hash ⟨score, depth, cacheType, bestMoveHash⟩ }
  | some existing =>
    if existing.depth ≤ depth then
      { st with tt := ttSet st.tt hash ⟨score, depth, cacheType, bestMoveHash⟩ }
    else st

/-- The terminal score of `minimax` when `checkWinner` decides the game
(chess-ai.js lines 437–443): evaluated from yellow's perspective, faster
wins preferred. -/
def winnerScore (w : Winner) (depth : Int) : JNum :=
  match w with
  | Winner.yellow => JNum.num (10000 + depth)
  | Winner.red => JNum.num (-10000 - depth)
  | Winner.draw => JNum.num 0

/-- The quiescence-search capture loop (chess-ai.js lines 645–684), with the
recursive call abstracted as `recur` (the loop passes it the state, the
reference of the per-move board copy, the window, the side, and the new
hash; the same side continues on an unfinished multi-jump, otherwise the
side flips). -/
def qLoop (env : AIEnv) (recur : AISt → Nat → JNum → JNum → Bool → Color → Nat → JNum × AISt)
    (r : Nat) (hash : Nat) (isMax : Bool) (color : Color) :
    List MoveR → AISt → JNum → JNum → JNum → JNum × AISt
  | [], st, _, _, bestScore => (bestScore, st)
  | move :: rest, st, alpha, beta, bestScore =>
    let c := copyBoardH st r
    match getCell (heapGet st.heap r) move.fromX move.fromY with
    | none => qLoop env recur r hash isMax color rest c.1 alpha beta bestScore
    | some pieceBefore =>
      let s := simulateMoveH env c.1 c.2 move hash
      let nextColor := Color.other color
      let boardC := heapGet s.1.heap c.2
      let pieceAfter := getCell boardC move.toX move.toY
      let promoted : Bool :=
        match pieceAfter with
        | some pa => !pieceBefore.kingB && shouldPromote pa.color move.toY
        | none => false
      let furtherJumps : List (List Int) :=
        match pieceAfter with
        | some pa =>
          if move.isJump && !promoted then
            findSingleJumps (some boardC) [move.toX, move.toY] (some pa)
          else []
        | none => []
      let res :=
        if move.isJump && !furtherJumps.isEmpty && !promoted then
          recur s.1 c.2 alpha beta isMax color s.2
        else
          recur s.1 c.2 alpha beta (!isMax) nextColor s.2
      let bestScore := if isMax then JNum.jmax bestScore res.1 else JNum.jmin bestScore res.1
      let alpha := if isMax then JNum.jmax alpha bestScore else alpha
      let beta := if isMax then beta else JNum.jmin beta bestScore
      if JNum.jle beta alpha then (bestScore, res.2)
      else qLoop env recur r hash isMax color rest res.2 alpha beta bestScore

/-- Embeds `ChessAI.quiescenceSearch` (chess-ai.js lines 591–695), fuel-indexed
(the JavaScript recursion is bounded by `MAX_QUIESCENCE_DEPTH`); the time
check and node counter (lines 595–601) are omitted (no-time-pressure
assumption). -/
def quiesceH (env : AIEnv) : Nat → AISt → Nat → JNum → JNum → Bool → Color → Nat → Nat →
    JNum × AISt
  | 0, st, _, _, _, _, _, _, _ => (JNum.num 0, st)
  | fuel + 1, st, r, alpha, beta, isMax, color, hash, qDepth =>
    let board := heapGet st.heap r
    let cached := List.lookup hash st.tt
    let ttHit : Option JNum :=
      match cached with
      | some e =>
        if decide (-(qDepth : Int) ≤ e.depth) && (e.ttype == 0) then some e.score else none
      | none => none
    match ttHit with
    | some sc => (sc, st)
    | none =>
      let standPat := JNum.num (env.ev board)
      let alpha := if isMax then JNum.jmax alpha standPat else alpha
      let beta := if isMax then beta else JNum.jmin beta standPat
      if JNum.jle beta alpha then (standPat, st)
      else if env.maxQ ≤ qDepth then (standPat, st)
      else
        let captureMoves := getAllPossibleMoves board color true
        if captureMoves.isEmpty then (standPat, st)
        else
          let sorted := sortMoves captureMoves
          qLoop env (fun st' r' a b m c h => quiesceH env fuel st' r' a b m c h (qDepth + 1))
            r hash isMax color sorted st alpha beta standPat

/-- The null-window loop over the non-first moves of `minimax`
(chess-ai.js lines 526–585), with the single-branch search abstracted as
`search st move alpha beta`; tracks the best score, the hash of the board
after the best move (recomputed through a fresh copy when the best move
changes), and prunes on `alpha ≥ beta`. -/
def pvsLoop (search : AISt → MoveR → JNum → JNum → JNum × AISt) (env : AIEnv)
    (r : Nat) (hash : Nat) (isMax : Bool) :
    List MoveR → AISt → JNum → JNum → JNum → Option Nat → JNum × Option Nat × AISt
  | [], st, _, _, bestScore, bmh => (bestScore, bmh, st)
  | move :: rest, st, alpha, beta, bestScore, bmh =>
    let nw := if isMax then search st move alpha (JNum.addQ alpha 1)
              else search st move (JNum.addQ beta (-1)) beta
    let res :=
      if isMax then
        (if JNum.jlt alpha nw.1 && JNum.jlt nw.1 beta then search nw.2 move alpha beta else nw)
      else
        (if JNum.jlt nw.1 beta && JNum.jlt alpha nw.1 then search nw.2 move alpha beta else nw)
    let improved := if isMax then JNum.jlt bestScore res.1 else JNum.jlt res.1 bestScore
    let upd :=
      if improved then
        let p := copySimH env res.2 r move hash
        (res.1, some p.2.2, p.1)
      else (bestScore, bmh, res.2)
    let bestScore := upd.1
    let bmh := upd.2.1
    let st := upd.2.2
    let alpha := if isMax then JNum.jmax alpha bestScore else alpha
    let beta := if isMax then beta else JNum.jmin beta bestScore
    if JNum.jle beta alpha then (bestScore, bmh, st)
    else pvsLoop search env r hash isMax rest st alpha beta bestScore bmh

/-- The transposition-table lookup block of `ChessAI.minimax`
(chess-ai.js lines 452–461): an early exact score, and the window narrowed
by cached lower/upper bounds (returning the cached score when the narrowed
window is empty). -/
def ttProbe (tt : List (Nat × TTEntry)) (hash : Nat) (depth : Int) (alpha beta : JNum) :
    Option JNum × JNum × JNum :=
  match List.lookup hash tt with
  | some e =>
    if depth ≤ e.depth then
      if e.ttype = 0 then (some e.score, alpha, beta)
      else
        let a2 := if e.ttype = 1 then JNum.jmax alpha e.score else alpha
        let b2 := if e.ttype = 2 then JNum.jmin beta e.score else beta
        if JNum.jle b2 a2 then (some e.score, a2, b2) else (none, a2, b2)
    else (none, alpha, beta)
  | none => (none, alpha, beta)

mutual

/-- Embeds `ChessAI.minimax` (chess-ai.js lines 424–588), fuel-indexed (the
multi-jump continuation recurses at the same depth, so plain `depth` is not
a measure; in JavaScript each continuation captures a piece, which bounds
the recursion); the time checks and node counters (lines 426–434) are
omitted (no-time-pressure assumption). -/
def minimaxH (env : AIEnv) : Nat → AISt → Nat → Int → JNum → JNum → Bool → Color → Bool →
    Nat → JNum × AISt
  | 0, st, _, _, _, _, _, _, _, _ => (JNum.num 0, st)
  | fuel + 1, st, r, depth, alpha, beta, isMax, color, _isCont, hash =>
    let board := heapGet st.heap r
    match checkWinner (some board) with
    | some w => (winnerScore w depth, st)
    | none =>
      if depth ≤ 0 then quiesceH env fuel st r alpha beta isMax color hash 0
      else
        let originalAlpha := alpha
        let originalBeta := beta
        let ttRes := ttProbe st.tt hash depth alpha beta
        match ttRes.1 with
        | some sc => (sc, st)
        | none =>
          let alpha := ttRes.2.1
          let beta := ttRes.2.2
          let possibleMoves0 := getAllPossibleMoves board color true
          let possibleMoves :=
            if possibleMoves0.isEmpty then getAllPossibleMoves board color false
            else possibleMoves0
          match sortMoves possibleMoves with
          | [] =>
            ((if isMax then JNum.num (-10000 - depth) else JNum.num (10000 + depth)), st)
          | firstMove :: rest =>
            let fm := searchMoveH env fuel st r firstMove depth alpha beta isMax color
              false hash
            let bestInit := if isMax then JNum.ninf else JNum.pinf
            let improvedFirst :=
              if isMax then JNum.jlt bestInit fm.1 else JNum.jlt fm.1 bestInit
            let upd :=
              if improvedFirst then
                let p := copySimH env fm.2 r firstMove hash
                (fm.1, some p.2.2, p.1)
              else (bestInit, (none : Option Nat), fm.2)
            let bestScore := upd.1
            let bmh := upd.2.1
            let st2 := upd.2.2
            let alpha := if isMax then JNum.jmax alpha bestScore else alpha
            let beta := if isMax then beta else JNum.jmin beta bestScore
            if JNum.jle beta alpha then
              (bestScore,
                storeTranspositionEntry st2 hash depth bestScore originalAlpha originalBeta bmh)
            else
              let lp := pvsLoop (fun st' m a b => searchMoveH env fuel st' r m depth a b
                isMax color false hash) env r hash isMax rest st2 alpha beta bestScore bmh
              (lp.1, storeTranspositionEntry lp.2.2 hash depth lp.1 originalAlpha
                originalBeta lp.2.1)

/-- Embeds `ChessAI.searchMove` (chess-ai.js lines 385–419): copy the board,
simulate the move on the copy, and recurse — at the same depth, same side
and same maximizing flag when the move is a jump, the landing piece has a
further single jump and did not promote; otherwise at `depth - 1` with the
side flipped. -/
def searchMoveH (env : AIEnv) : Nat → AISt → Nat → MoveR → Int → JNum → JNum → Bool →
    Color → Bool → Nat → JNum × AISt
  | 0, st, _, _, _, _, _, _, _, _, _ => (JNum.num 0, st)
  | fuel + 1, st, r, move, depth, alpha, beta, isMax, color, _isCont, hash =>
    let c := copyBoardH st r
    match getCell (heapGet st.heap r) move.fromX move.fromY with
    | none => ((if isMax then JNum.ninf else JNum.pinf), c.1)
    | some pieceBefore =>
      let s := simulateMoveH env c.1 c.2 move hash
      let nextColor := Color.other color
      let boardC := heapGet s.1.heap c.2
      let pieceAfter := getCell boardC move.toX move.toY
      let promoted : Bool :=
        match pieceAfter with
        | some pa => !pieceBefore.kingB && shouldPromote pa.color move.toY
        | none => false
      let furtherJumps : List (List Int) :=
        match pieceAfter with
        | some pa =>
          if move.isJump && !promoted then
            findSingleJumps (some boardC) [move.toX, move.toY] (some pa)
          else []
        | none => []
      if move.isJump && !furtherJumps.isEmpty && !promoted then
        minimaxH env fuel s.1 c.2 depth alpha beta isMax color true s.2
      else
        minimaxH env fuel s.1 c.2 (depth - 1) alpha beta (!isMax) nextColor false s.2

end

/-- The root loop over the non-first moves of `findBestMoveAtDepth`
(chess-ai.js lines 327–372): null-window search with re-search, tracking the
best move object; the root never prunes (the `alpha >= beta` break is
commented out in the source). -/
def rootLoop (search : AISt → MoveR → JNum → JNum → JNum × AISt) (isMax : Bool) :
    List MoveR → AISt → JNum → JNum → JNum → Option MoveR → JNum × Option MoveR × AISt
  | [], st, _, _, bestScore, best => (bestScore, best, st)
  | move :: rest, st, alpha, beta, bestScore, best =>
    let nw := if isMax then search st move alpha (JNum.addQ alpha 1)
              else search st move (JNum.addQ beta (-1)) beta
    let res :=
      if isMax then
        (if JNum.jlt alpha nw.1 && JNum.jlt nw.1 beta then search nw.2 move alpha beta else nw)
      else
        (if JNum.jlt nw.1 beta && JNum.jlt alpha nw.1 then search nw.2 move alpha beta else nw)
    let improved := if isMax then JNum.jlt bestScore res.1 else JNum.jlt res.1 bestScore
    let upd :=
      if improved then
        (res.1, some move,
          (if isMax then JNum.jmax alpha res.1 else alpha),
          (if isMax then beta else JNum.jmin beta res.1))
      else (bestScore, best, alpha, beta)
    rootLoop search isMax rest res.2 upd.2.2.1 upd.2.2.2 upd.1 upd.2.1

/-- Embeds `ChessAI.findBestMoveAtDepth` (chess-ai.js lines 286–382): generate
the root moves (jumps first, regular as fallback), sort them, search the
first with a full window and the rest through the null-window root loop, and
finally recompute the hash of the best move's resulting board on a fresh
copy (the `currentBestMoveHash` hint).  Returns the best score, the best
move, and the final state.  The time-limit throws are omitted
(no-time-pressure assumption). -/
def findBestMoveAtDepthH (env : AIEnv) (fuel : Nat) (st : AISt) (r : Nat)
    (aiColor : Color) (depth : Int) (initialBoardHash : Nat) :
    JNum × Option MoveR × AISt :=
  let isMax := aiColor = Color.yellow
  let board := heapGet st.heap r
  let possibleMoves0 := getAllPossibleMoves board aiColor true
  let possibleMoves :=
    if possibleMoves0.isEmpty then possibleMoves0 ++ getAllPossibleMoves board aiColor false
    else possibleMoves0
  match sortMoves possibleMoves with
  | [] => ((if isMax then JNum.ninf else JNum.pinf), none, st)
  | firstMove :: rest =>
    let fm := searchMoveH env fuel st r firstMove depth JNum.ninf JNum.pinf isMax aiColor
      false initialBoardHash
    let alpha := if isMax then JNum.jmax JNum.ninf fm.1 else JNum.ninf
    let beta := if isMax then JNum.pinf else JNum.jmin JNum.pinf fm.1
    let lp := rootLoop (fun st' m a b => searchMoveH env fuel st' r m depth a b isMax
      aiColor false initialBoardHash) isMax rest fm.2 alpha beta fm.1 (some firstMove)
    match lp.2.1 with
    | some best =>
      let p := copySimH env lp.2.2 r best initialBoardHash
      (lp.1, some best, p.1)
    | none => (lp.1, none, lp.2.2)

end ChessAI
namespace ChessAI

open Checkers ChessRules

theorem isEmpty_false_of_ne_nil {α : Type} {l : List α} (h : l ≠ []) : l.isEmpty = false := by
  cases l with
  | nil => exact absurd rfl h
  | cons a t => rfl

/-- A concrete AI environment (test fixture): an injective Zobrist table,
a nonzero turn key, the constant evaluator, quiescence depth 3. -/
def aiEnvFix : AIEnv := ⟨fun i sq => (i + 1) * 64 + sq + 1, 1048576, fun _ => 0, 3⟩

/-- Board with a red man at (2,5) able to jump the yellow man at (3,4) and
then continue over the yellow man at (3,2) (test fixture). -/
def bContJump : Board :=
  place (place (place emptyBoard 2 5 redMan) 3 4 yellowMan) 3 2 yellowMan

/-- The first hop of the continuing jump chain on `bContJump`. -/
def mvContJump : MoveR := ⟨2, 5, 4, 3, true, some 3, some 4, JNum.num 0⟩

/-- Search state holding `bContJump` as the single live board. -/
def stContJump : AISt := ⟨[bContJump], []⟩

/-- C2: after an applied jump whose landing piece still has a further single
jump and did not promote, the same player keeps moving.  First conjunct (the
search): `searchMove` recurses into `minimax` with the same remaining depth,
the same color and the same maximizing flag exactly when the move was a jump,
the landing piece has a further single jump on the simulated copy, and no
promotion happened; in every other case the depth decrements by one and the
side to move flips.  Second conjunct (the controller): under the same
no-promotion condition, `movePiece` leaves `currentPlayer` unchanged and
restricts `validMoves` to the continuation jumps of the landed piece when
such jumps exist, and flips `currentPlayer` when they do not or when the
piece promoted. -/
theorem multi_jump_continuation_spec :
    (∀ (env : AIEnv) (fuel : Nat) (st : AISt) (r : Nat) (move : MoveR) (depth : Int)
        (alpha beta : JNum) (isMax : Bool) (color : Color) (isCont : Bool) (hash : Nat)
        (pb pa : PieceJS) (st' : AISt) (rc h' : Nat),
      copySimH env st r move hash = (st', rc, h') →
      getCell (heapGet st.heap r) move.fromX move.fromY = some pb →
      getCell (heapGet st'.heap rc) move.toX move.toY = some pa →
      (move.isJump = true →
        (!pb.kingB && shouldPromote pa.color move.toY) = false →
        findSingleJumps (some (heapGet st'.heap rc)) [move.toX, move.toY] (some pa) ≠ [] →
        searchMoveH env (fuel + 1) st r move depth alpha beta isMax color isCont hash =
          minimaxH env fuel st' rc depth alpha beta isMax color true h') ∧
      ((move.isJump = false ∨ (!pb.kingB && shouldPromote pa.color move.toY) = true ∨
          findSingleJumps (some (heapGet st'.heap rc)) [move.toX, move.toY] (some pa) = []) →
        searchMoveH env (fuel + 1) st r move depth alpha beta isMax color isCont hash =
          minimaxH env fuel st' rc (depth - 1) alpha beta (!isMax) (Color.other color)
            false h')) ∧
    (∀ (g : ChessGame.GameState) (toX toY capX capY : Int) (sel : ChessGame.SelPiece),
      g.gameState = ChessGame.GState.active →
      g.selectedPiece = some sel →
      g.validMoves.find? (fun move =>
          decide (2 ≤ move.length) && decide (move.getD 0 0 = toX) &&
            decide (move.getD 1 0 = toY)) = some [toX, toY, capX, capY] →
      WF8 g.board →
      isInBounds toX toY = true →
      ¬ (toX = sel.x ∧ toY = sel.y) →
      ¬ (toX = capX ∧ toY = capY) →
      (¬ (sel.piece.kingB = false ∧ shouldPromote sel.piece.color toY = true) →
        (findSingleJumps (some (ChessGame.movePiece toX toY g).2.board) [toX, toY]
            (some sel.piece) ≠ [] →
          (ChessGame.movePiece toX toY g).2.currentPlayer = g.currentPlayer ∧
          (ChessGame.movePiece toX toY g).2.validMoves =
            findSingleJumps (some (ChessGame.movePiece toX toY g).2.board) [toX, toY]
              (some sel.piece)) ∧
        (findSingleJumps (some (ChessGame.movePiece toX toY g).2.board) [toX, toY]
            (some sel.piece) = [] →
          (ChessGame.movePiece toX toY g).2.currentPlayer = Color.other g.currentPlayer)) ∧
      ((sel.piece.kingB = false ∧ shouldPromote sel.piece.color toY = true) →
        (ChessGame.movePiece toX toY g).2.currentPlayer = Color.other g.currentPlayer)) := by
  constructor
  · intro env fuel st r move depth alpha beta isMax color isCont hash pb pa st' rc h'
      hcs hpb hpa
    have h1 : (simulateMoveH env (copyBoardH st r).1 (copyBoardH st r).2 move hash).1 = st' := by
      have := congrArg (fun p => p.1) hcs
      exact this
    have h2 : (copyBoardH st r).2 = rc := by
      have := congrArg (fun p => p.2.1) hcs
      exact this
    have h3 : (simulateMoveH env (copyBoardH st r).1 (copyBoardH st r).2 move hash).2 = h' := by
      have := congrArg (fun p => p.2.2) hcs
      exact this
    constructor
    · intro hj hnp hfj
      have hie := isEmpty_false_of_ne_nil hfj
      simp only [searchMoveH]
      rw [hpb]
      dsimp only
      rw [h1, h3, h2, hpa]
      dsimp only
      rw [hnp, hj]
      simp only [Bool.not_false, Bool.and_true, Bool.true_and, if_true]
      rw [hie]
      simp
    · intro hother
      simp only [searchMoveH]
      rw [hpb]
      dsimp only
      rw [h1, h3, h2, hpa]
      dsimp only
      rcases hother with hj0 | hp1 | hf0
      · rw [hj0]
        simp
      · rw [hp1]
        simp
      · rw [hf0]
        simp [ite_self]
  · intro g toX toY capX capY sel hact hsel hfind hWF htb hne1 hne2
    have h := ChessGame.movePiece_jump_spec g toX toY capX capY sel hact hsel hfind hWF
      htb hne1 hne2
    have h2 := h.2
    dsimp only at h2
    refine ⟨fun hnp => ?_, fun hp => (h2.2 hp).2.1⟩
    obtain ⟨-, hcont, hend⟩ := h2.1 hnp
    exact ⟨fun hne => ⟨(hcont hne).1, (hcont hne).2.1⟩, fun he => (hend he).1⟩

/-- Witness for `multi_jump_continuation_spec`: the red man's jump from (2,5)
to (4,3) on `bContJump` captures (3,4), a further jump over (3,2) exists, no
promotion occurs, and the search indeed recurses at the same depth 4 for the
same side. -/
theorem multi_jump_continuation_spec_witness :
    getCell (heapGet stContJump.heap 0) mvContJump.fromX mvContJump.fromY = some redMan ∧
    searchMoveH aiEnvFix 3 stContJump 0 mvContJump 4 JNum.ninf JNum.pinf false Color.red
        false 7 =
      minimaxH aiEnvFix 2 (copySimH aiEnvFix stContJump 0 mvContJump 7).1
        (copySimH aiEnvFix stContJump 0 mvContJump 7).2.1 4 JNum.ninf JNum.pinf false
        Color.red true (copySimH aiEnvFix stContJump 0 mvContJump 7).2.2 :=
  ⟨by decide,
    (multi_jump_continuation_spec.1 aiEnvFix 2 stContJump 0 mvContJump 4 JNum.ninf JNum.pinf
        false Color.red false 7 redMan redMan
        (copySimH aiEnvFix stContJump 0 mvContJump 7).1
        (copySimH aiEnvFix stContJump 0 mvContJump 7).2.1
        (copySimH aiEnvFix stContJump 0 mvContJump 7).2.2
        rfl (by decide) (by decide)).1 rfl (by decide) (by decide)⟩

/-- Board with a red man at (2,5) and a yellow man at (5,2), far apart
(test fixture for a quiet regular move). -/
def bQuiet : Board := place (place emptyBoard 2 5 redMan) 5 2 yellowMan

/-- The regular (turn-ending) red move (2,5) → (1,4) on `bQuiet`. -/
def mvQuiet : MoveR := ⟨2, 5, 1, 4, false, none, none, JNum.num 0⟩

/-- Search state holding `bQuiet` as the single live board. -/
def stQuiet : AISt := ⟨[bQuiet], []⟩

/-- C6 (code bug): the position hash threaded through the search is NOT kept
equal to `computeZobristHash` of the node's board and side to move.
`simulateMove` never XORs the turn key, and neither `searchMove` nor
`minimax` does either (the comment at chess-ai.js lines 909–912 claims the
flip happens "when the player actually changes in minimax/searchMove", but
no such code exists).  Concretely, for the turn-ending quiet move
`mvQuiet` of the red man on `bQuiet`: `searchMove` recurses into the
yellow-to-move node with the hash produced by `simulateMove`, and that hash
equals `computeZobristHash` of the resulting board with RED to move — it
differs from the yellow-to-move hash of that board, because the turn key of
`aiEnvFix` is nonzero. -/
theorem zobrist_turn_never_flipped :
    (searchMoveH aiEnvFix 1 stQuiet 0 mvQuiet 3 JNum.ninf JNum.pinf false Color.red false
        (computeZobristHash aiEnvFix bQuiet Color.red) =
      minimaxH aiEnvFix 0
        (copySimH aiEnvFix stQuiet 0 mvQuiet (computeZobristHash aiEnvFix bQuiet Color.red)).1
        (copySimH aiEnvFix stQuiet 0 mvQuiet
          (computeZobristHash aiEnvFix bQuiet Color.red)).2.1
        2 JNum.ninf JNum.pinf true Color.yellow false
        (copySimH aiEnvFix stQuiet 0 mvQuiet
          (computeZobristHash aiEnvFix bQuiet Color.red)).2.2) ∧
    (copySimH aiEnvFix stQuiet 0 mvQuiet (computeZobristHash aiEnvFix bQuiet Color.red)).2.2 =
      computeZobristHash aiEnvFix
        (heapGet (copySimH aiEnvFix stQuiet 0 mvQuiet
            (computeZobristHash aiEnvFix bQuiet Color.red)).1.heap
          (copySimH aiEnvFix stQuiet 0 mvQuiet
            (computeZobristHash aiEnvFix bQuiet Color.red)).2.1)
        Color.red ∧
    (copySimH aiEnvFix stQuiet 0 mvQuiet (computeZobristHash aiEnvFix bQuiet Color.red)).2.2 ≠
      computeZobristHash aiEnvFix
        (heapGet (copySimH aiEnvFix stQuiet 0 mvQuiet
            (computeZobristHash aiEnvFix bQuiet Color.red)).1.heap
          (copySimH aiEnvFix stQuiet 0 mvQuiet
            (computeZobristHash aiEnvFix bQuiet Color.red)).2.1)
        Color.yellow :=
  ⟨rfl, by decide, by decide⟩

/-- C7: with a fixed depth, no time pressure (the embedding carries no
timeouts), and a fixed board and side to move, two runs of the search
produce the same move and score.  The only nondeterminism of the JavaScript
search lives in the environment: the `Math.random()` tie-break inside
`evaluateBoard` (chess-ai.js line 1019) and the randomly initialised Zobrist
table and turn key; two runs whose environments agree componentwise —
in particular runs whose static evaluator has no randomized tie-break —
give identical results. -/
theorem search_determinism_spec (e1 e2 : AIEnv)
    (hev : e1.ev = e2.ev) (hzt : e1.zt = e2.zt) (hzu : e1.zturn = e2.zturn)
    (hq : e1.maxQ = e2.maxQ) :
    ∀ (fuel : Nat) (st : AISt) (r : Nat) (aiColor : Color) (depth : Int) (hash : Nat),
      findBestMoveAtDepthH e1 fuel st r aiColor depth hash =
        findBestMoveAtDepthH e2 fuel st r aiColor depth hash := by
  have he : e1 = e2 := by
    cases e1
    cases e2
    simp_all
  subst he
  intro fuel st r c d h
  rfl

/-- Witness for `search_determinism_spec`: two runs with the fixture
environment at depth 1 on `bQuiet` agree. -/
theorem search_determinism_spec_witness :
    aiEnvFix.ev = aiEnvFix.ev ∧
    findBestMoveAtDepthH aiEnvFix 2 stQuiet 0 Color.yellow 1 0 =
      findBestMoveAtDepthH aiEnvFix 2 stQuiet 0 Color.yellow 1 0 :=
  ⟨rfl, search_determinism_spec aiEnvFix aiEnvFix rfl rfl rfl rfl 2 stQuiet 0 Color.yellow 1 0⟩

end ChessAI
namespace ChessAI

open Checkers ChessRules

/-- The heap only grows: `h'` extends `h` (no pre-existing board object is
ever overwritten). -/
def HExt (h h' : List Board) : Prop := ∃ t, h' = h ++ t

theorem HExt_refl (h : List Board) : HExt h h := ⟨[], by simp⟩

theorem HExt_trans {a b c : List Board} (h1 : HExt a b) (h2 : HExt b c) : HExt a c := by
  obtain ⟨t1, rfl⟩ := h1
  obtain ⟨t2, rfl⟩ := h2
  exact ⟨t1 ++ t2, by simp⟩

theorem HExt_get? {h h' : List Board} (he : HExt h h') {i : Nat} (hi : i < h.length) :
    h'.get? i = h.get? i := by
  obtain ⟨t, rfl⟩ := he
  exact List.get?_append hi

theorem set_append_singleton {α : Type} (l : List α) (a b : α) :
    (l ++ [a]).set l.length b = l ++ [b] := by
  induction l with
  | nil => rfl
  | cons x t ih =>
    simp only [List.cons_append, List.length_cons, List.set]
    show x :: (t ++ [a]).set t.length b = x :: (t ++ [b])
    rw [ih]

theorem copyBoardH_hext (st : AISt) (r : Nat) : HExt st.heap (copyBoardH st r).1.heap :=
  ⟨[copyBoard (heapGet st.heap r)], rfl⟩

theorem copySimH_heap (env : AIEnv) (st : AISt) (r : Nat) (move : MoveR) (hash : Nat) :
    (copySimH env st r move hash).1.heap =
      st.heap ++ [(simMove env (copyBoard (heapGet st.heap r)) move hash).1] := by
  unfold copySimH copyBoardH simulateMoveH heapGet
  simp only [List.get?_concat_length, Option.getD_some]
  rw [set_append_singleton]

theorem copySimH_hext (env : AIEnv) (st : AISt) (r : Nat) (move : MoveR) (hash : Nat) :
    HExt st.heap (copySimH env st r move hash).1.heap :=
  ⟨_, copySimH_heap env st r move hash⟩

theorem storeTranspositionEntry_heap (st : AISt) (hash : Nat) (depth : Int) (score : JNum)
    (oa ob : JNum) (bmh : Option Nat) :
    (storeTranspositionEntry st hash depth score oa ob bmh).heap = st.heap := by
  unfold storeTranspositionEntry
  dsimp only
  split
  · rfl
  · split <;> rfl

theorem qLoop_frame (env : AIEnv)
    (recur : AISt → Nat → JNum → JNum → Bool → Color → Nat → JNum × AISt)
    (hrec : ∀ st' r' a b m c h, HExt st'.heap (recur st' r' a b m c h).2.heap)
    (r : Nat) (hash : Nat) (isMax : Bool) (color : Color) :
    ∀ (moves : List MoveR) (st : AISt) (alpha beta bestScore : JNum),
      HExt st.heap (qLoop env recur r hash isMax color moves st alpha beta bestScore).2.heap := by
  intro moves
  induction moves with
  | nil =>
    intro st alpha beta bestScore
    exact HExt_refl _
  | cons mv rest ih =>
    intro st alpha beta bestScore
    rw [qLoop.eq_2]
    have hcs : HExt st.heap
        (simulateMoveH env (copyBoardH st r).1 (copyBoardH st r).2 mv hash).1.heap :=
      ⟨_, copySimH_heap env st r mv hash⟩
    split
    · exact HExt_trans (copyBoardH_hext st r) (ih _ _ _ _)
    · dsimp only
      repeat' split
      all_goals
        first
          | exact HExt_trans hcs (hrec _ _ _ _ _ _ _)
          | exact HExt_trans (HExt_trans hcs (hrec _ _ _ _ _ _ _)) (ih _ _ _ _)

theorem quiesceH_frame (env : AIEnv) :
    ∀ (fuel : Nat) (st : AISt) (r : Nat) (alpha beta : JNum) (isMax : Bool) (color : Color)
      (hash qDepth : Nat),
      HExt st.heap (quiesceH env fuel st r alpha beta isMax color hash qDepth).2.heap := by
  intro fuel
  induction fuel with
  | zero =>
    intros
    exact HExt_refl _
  | succ n ih =>
    intro st r alpha beta isMax color hash qDepth
    rw [quiesceH.eq_2]
    dsimp only
    repeat' split
    all_goals
      first
        | exact HExt_refl _
        | exact qLoop_frame env _ (fun st' r' a b m c h => ih st' r' a b m c h (qDepth + 1))
            r hash isMax color _ st _ _ _

theorem pvsLoop_frame (search : AISt → MoveR → JNum → JNum → JNum × AISt) (env : AIEnv)
    (r : Nat) (hash : Nat) (isMax : Bool)
    (hs : ∀ st' m a b, HExt st'.heap (search st' m a b).2.heap) :
    ∀ (moves : List MoveR) (st : AISt) (alpha beta bestScore : JNum) (bmh : Option Nat),
      HExt st.heap
        (pvsLoop search env r hash isMax moves st alpha beta bestScore bmh).2.2.heap := by
  intro moves
  induction moves with
  | nil =>
    intro st alpha beta bestScore bmh
    exact HExt_refl _
  | cons mv rest ih =>
    intro st alpha beta bestScore bmh
    rw [pvsLoop.eq_2]
    dsimp only
    repeat' split
    all_goals
      first
        | exact HExt_trans (hs _ _ _ _) (hs _ _ _ _)
        | exact hs _ _ _ _
        | exact HExt_trans (hs _ _ _ _) (copySimH_hext env _ r mv hash)
        | exact HExt_trans (HExt_trans (hs _ _ _ _) (hs _ _ _ _))
            (copySimH_hext env _ r mv hash)
        | exact HExt_trans (hs _ _ _ _) (ih _ _ _ _ _)
        | exact HExt_trans (HExt_trans (hs _ _ _ _) (hs _ _ _ _)) (ih _ _ _ _ _)
        | exact HExt_trans (HExt_trans (hs _ _ _ _) (copySimH_hext env _ r mv hash))
            (ih _ _ _ _ _)
        | exact HExt_trans (HExt_trans (HExt_trans (hs _ _ _ _) (hs _ _ _ _))
            (copySimH_hext env _ r mv hash)) (ih _ _ _ _ _)

theorem minimax_searchMove_frame (env : AIEnv) :
    ∀ fuel : Nat,
      (∀ (st : AISt) (r : Nat) (depth : Int) (alpha beta : JNum) (isMax : Bool)
          (color : Color) (isCont : Bool) (hash : Nat),
        HExt st.heap
          (minimaxH env fuel st r depth alpha beta isMax color isCont hash).2.heap) ∧
      (∀ (st : AISt) (r : Nat) (move : MoveR) (depth : Int) (alpha beta : JNum)
          (isMax : Bool) (color : Color) (isCont : Bool) (hash : Nat),
        HExt st.heap
          (searchMoveH env fuel st r move depth alpha beta isMax color isCont hash).2.heap) := by
  intro fuel
  induction fuel with
  | zero =>
    constructor
    · intros
      exact HExt_refl _
    · intros
      exact HExt_refl _
  | succ n ih =>
    obtain ⟨ihm, ihs⟩ := ih
    constructor
    · intro st r depth alpha beta isMax color isCont hash
      rw [minimaxH.eq_2]
      split
      case h_1 => exact HExt_refl _
      case h_2 =>
        by_cases hd0 : depth ≤ 0
        · rw [if_pos hd0]
          exact quiesceH_frame env n st r alpha beta isMax color hash 0
        · rw [if_neg hd0]
          dsimp only
          rcases htt : (ttProbe st.tt hash depth alpha beta).1 with _ | sc
          · dsimp only
            rcases hsm : sortMoves
                (if (getAllPossibleMoves (heapGet st.heap r) color true).isEmpty = true then
                  getAllPossibleMoves (heapGet st.heap r) color false
                else getAllPossibleMoves (heapGet st.heap r) color true) with _ | ⟨fm, rest⟩
            · dsimp only
              exact HExt_refl _
            · dsimp only
              repeat' split
              all_goals
                first
                  | (dsimp only
                     rw [storeTranspositionEntry_heap]
                     first
                       | exact HExt_trans (ihs _ _ _ _ _ _ _ _ _ _)
                           (copySimH_hext env _ r _ hash)
                       | exact ihs _ _ _ _ _ _ _ _ _ _
                       | exact HExt_trans
                           (HExt_trans (ihs _ _ _ _ _ _ _ _ _ _)
                             (copySimH_hext env _ r _ hash))
                           (pvsLoop_frame _ env r hash isMax
                             (fun st' m a b => ihs st' r m depth a b isMax color false hash)
                             _ _ _ _ _ _)
                       | exact HExt_trans (ihs _ _ _ _ _ _ _ _ _ _)
                           (pvsLoop_frame _ env r hash isMax
                             (fun st' m a b => ihs st' r m depth a b isMax color false hash)
                             _ _ _ _ _ _))
          · dsimp only
            exact HExt_refl _
    · intro st r move depth alpha beta isMax color isCont hash
      rw [searchMoveH.eq_2]
      have hcs : HExt st.heap
          (simulateMoveH env (copyBoardH st r).1 (copyBoardH st r).2 move hash).1.heap :=
        ⟨_, copySimH_heap env st r move hash⟩
      split
      case h_1 => exact copyBoardH_hext st r
      case h_2 =>
        dsimp only
        repeat' split
        all_goals exact HExt_trans hcs (ihm _ _ _ _ _ _ _ _ _)

theorem rootLoop_frame (search : AISt → MoveR → JNum → JNum → JNum × AISt) (isMax : Bool)
    (hs : ∀ st' m a b, HExt st'.heap (search st' m a b).2.heap) :
    ∀ (moves : List MoveR) (st : AISt) (alpha beta bestScore : JNum) (best : Option MoveR),
      HExt st.heap (rootLoop search isMax moves st alpha beta bestScore best).2.2.heap := by
  intro moves
  induction moves with
  | nil =>
    intro st alpha beta bestScore best
    exact HExt_refl _
  | cons mv rest ih =>
    intro st alpha beta bestScore best
    rw [rootLoop.eq_2]
    try dsimp only
    repeat' split
    all_goals
      first
        | exact HExt_trans (hs _ _ _ _) (ih _ _ _ _ _)
        | exact HExt_trans (HExt_trans (hs _ _ _ _) (hs _ _ _ _)) (ih _ _ _ _ _)

theorem findBestMoveAtDepthH_frame (env : AIEnv) (fuel : Nat) (st : AISt) (r : Nat)
    (aiColor : Color) (depth : Int) (hash : Nat) :
    HExt st.heap (findBestMoveAtDepthH env fuel st r aiColor depth hash).2.2.heap := by
  have hs : ∀ (st' : AISt) (m : MoveR) (a b : JNum),
      HExt st'.heap
        (searchMoveH env fuel st' r m depth a b (aiColor = Color.yellow) aiColor
          false hash).2.heap :=
    fun st' m a b => (minimax_searchMove_frame env fuel).2 st' r m depth a b _ aiColor false hash
  unfold findBestMoveAtDepthH
  dsimp only
  rcases hsm : sortMoves
      (if (getAllPossibleMoves (heapGet st.heap r) aiColor true).isEmpty = true then
        getAllPossibleMoves (heapGet st.heap r) aiColor true ++
          getAllPossibleMoves (heapGet st.heap r) aiColor false
      else getAllPossibleMoves (heapGet st.heap r) aiColor true) with _ | ⟨fm, rest⟩
  · dsimp only
    exact HExt_refl _
  · dsimp only
    repeat' split
    all_goals
      first
        | exact HExt_trans
            (HExt_trans (hs _ _ _ _)
              (rootLoop_frame _ _ hs _ _ _ _ _ _))
            (copySimH_hext env _ r _ hash)
        | exact HExt_trans (hs _ _ _ _) (rootLoop_frame _ _ hs _ _ _ _ _ _)



/-- C8: the search never mutates the live board it is given.  Boards are
references into the heap of `AISt`; `copyBoard` allocates a fresh entry and
`simulateMove` writes only through the reference of such a per-node copy, so
every board that existed when a search function was entered — in particular
the live game board — is unchanged when it returns: the heap only grows
(`HExt`) and every pre-existing reference still dereferences to the same
object.  This covers `searchMove`, `minimax`, `quiescenceSearch` and
`findBestMoveAtDepth`; the rule-engine move generators they call
(`getJumpMoves`, `getRegularMoves`, `findSingleJumps`) are pure functions of
the board value in this embedding, matching the source where they simulate
only on `copyBoard` copies.  (Applying the final chosen move through the
game controller happens after `makeMove`'s search completes and is outside
these four functions.) -/
theorem search_never_mutates_live_board :
    ∀ (env : AIEnv) (fuel : Nat) (st : AISt) (r i : Nat), i < st.heap.length →
      (∀ (move : MoveR) (depth : Int) (alpha beta : JNum) (isMax : Bool) (color : Color)
          (isCont : Bool) (hash : Nat),
        (searchMoveH env fuel st r move depth alpha beta isMax color isCont hash).2.heap.get? i =
          st.heap.get? i) ∧
      (∀ (depth : Int) (alpha beta : JNum) (isMax : Bool) (color : Color) (isCont : Bool)
          (hash : Nat),
        (minimaxH env fuel st r depth alpha beta isMax color isCont hash).2.heap.get? i =
          st.heap.get? i) ∧
      (∀ (alpha beta : JNum) (isMax : Bool) (color : Color) (hash qDepth : Nat),
        (quiesceH env fuel st r alpha beta isMax color hash qDepth).2.heap.get? i =
          st.heap.get? i) ∧
      (∀ (aiColor : Color) (depth : Int) (hash : Nat),
        (findBestMoveAtDepthH env fuel st r aiColor depth hash).2.2.heap.get? i =
          st.heap.get? i) := by
  intro env fuel st r i hi
  refine ⟨fun move depth a b m c ic h => ?_, fun depth a b m c ic h => ?_,
    fun a b m c h q => ?_, fun c d h => ?_⟩
  · exact HExt_get? ((minimax_searchMove_frame env fuel).2 st r move depth a b m c ic h) hi
  · exact HExt_get? ((minimax_searchMove_frame env fuel).1 st r depth a b m c ic h) hi
  · exact HExt_get? (quiesceH_frame env fuel st r a b m c h q) hi
  · exact HExt_get? (findBestMoveAtDepthH_frame env fuel st r c d h) hi

/-- Witness for `search_never_mutates_live_board`: a depth-1 root search on
the live board `bQuiet` leaves the live board entry of the heap unchanged. -/
theorem search_never_mutates_live_board_witness :
    0 < stQuiet.heap.length ∧
    (findBestMoveAtDepthH aiEnvFix 2 stQuiet 0 Color.yellow 1 0).2.2.heap.get? 0 =
      stQuiet.heap.get? 0 :=
  ⟨by decide,
    (search_never_mutates_live_board aiEnvFix 2 stQuiet 0 0 (by decide)).2.2.2 Color.yellow 1 0⟩

end ChessAI
